import Mathlib

/-!
Verification of the perfarce Mercurial↔Perforce bridge
(src/.hgextensions/perfarce/perfarce.py) against its specification.

The development shallow-embeds the data model and the algorithms of the
source file: the file-operation classifier of `push`, the pending-tracker
cache `_readp4stat`, the `{{mercurial ...}}` reference-token embedding and
parsing, the outer-trim / already-exported precheck of `pushcommon`, the
author resolution `getuser`, the pull loop with its trailing tag changeset,
the `p4client.__init__` path/scheme validation, the ancestry walk `find`,
and the push operation sequence with its rollback handler `revert`.
Remote Perforce interactions are modelled as oracles or explicit state;
machine-level concerns (marshalling, subprocess I/O) are out of scope.
-/

namespace Perfarce

/-! ## String primitives

Python string operations are character-based; they are modelled on the
character list of the Lean string. -/

/-- Python `s.startswith(p)`, over characters. -/
def strStartsWith (s p : String) : Bool :=
  p.toList.isPrefixOf s.toList

/-- Python `s[n:]`, over characters. -/
def strDrop (s : String) (n : Nat) : String :=
  String.mk (s.toList.drop n)

/-- Python `c in s`, over characters. -/
def strContains (s : String) (c : Char) : Bool :=
  s.toList.contains c

/-- Python `s.split(sep)` for a single-character separator. -/
def splitChar (sep : Char) : List Char → List (List Char)
  | [] => [[]]
  | c :: cs =>
    if c = sep then [] :: splitChar sep cs
    else
      match splitChar sep cs with
      | h :: t => (c :: h) :: t
      | [] => [[c]]

/-! ## FileClassifier (push, perfarce.py lines 1452-1478)

The classifier partitions added files into move/copy/integrate according
to the copy-source map `cpy` and the `rems` dictionary built from the
removed list.  Python dictionaries are modelled as association lists. -/

/-- Association-list update mirroring the Python dict assignment `m[k] = v`:
replace the binding of `k` (keys are unique) or append a new one. -/
def setAssoc : List (String × Bool) → String → Bool → List (String × Bool)
  | [], k, v => [(k, v)]
  | kv :: rest, k, v => if kv.1 = k then (k, v) :: rest else kv :: setAssoc rest k v

/-- Association-list lookup mirroring the Python dict lookup `m[k]`
(`none` corresponds to a missing key). -/
def getAssoc : List (String × Bool) → String → Option Bool
  | [], _ => none
  | kv :: rest, k => if kv.1 = k then some kv.2 else getAssoc rest k

/-- The `rems` dictionary built by `for f in rem: rems[f[0]] = True`
(perfarce.py lines 1453-1455). -/
def remsInit (rem : List (String × String)) : List (String × Bool) :=
  rem.foldl (fun m f => setAssoc m f.1 true) []

/-- Lookup in the copy-source map `cpy` (destination ↦ (source, contentChanged)),
mirroring `f in cpy` / `r, chg = cpy[f]` (perfarce.py lines 1463-1464). -/
def lookupCpy (cpy : List (String × (String × Bool))) (f : String) : Option (String × Bool) :=
  (cpy.find? (fun kv => kv.1 = f)).map (fun kv => kv.2)

/-- Accumulated classifier state: the lists `moves`, `copies`, `ntg`
(integrate), `add2` (plain adds), `mod2` (extra modifies on copy/move
destinations) and the `rems` dictionary (perfarce.py lines 1457-1461). -/
structure Classified where
  moves : List (String × String × String)
  copies : List (String × String)
  ntg : List (String × String)
  add2 : List (String × String)
  mod2 : List (String × String)
  rems : List (String × Bool)
deriving Repr, DecidableEq

/-- One iteration of the classifier loop `for f,g in add:`
(perfarce.py lines 1462-1475): a known copy-source is classified as
Move / Copy / Integrate, content change additionally schedules a
Modify of the destination, and an unknown source stays a plain add. -/
def classifyStep (mv cp : Bool) (cpy : List (String × (String × Bool)))
    (st : Classified) (x : String × String) : Classified :=
  match lookupCpy cpy x.1 with
  | some rc =>
    let st1 :=
      if mv = true ∧ getAssoc st.rems rc.1 = some true then
        { st with moves := st.moves ++ [(rc.1, x.1, x.2)], rems := setAssoc st.rems rc.1 false }
      else if cp = true then
        { st with copies := st.copies ++ [(rc.1, x.1)] }
      else
        { st with ntg := st.ntg ++ [(rc.1, x.1)] }
    if rc.2 = true then { st1 with mod2 := st1.mod2 ++ [(x.1, x.2)] } else st1
  | none => { st with add2 := st.add2 ++ [(x.1, x.2)] }

/-- The classifier loop over the added files (perfarce.py lines 1462-1475). -/
def classifyLoop (mv cp : Bool) (cpy : List (String × (String × Bool)))
    (add : List (String × String)) (st : Classified) : Classified :=
  add.foldl (classifyStep mv cp cpy) st

/-- The full classifier of `push` (perfarce.py lines 1452-1478): classify
the added files, then rebuild the final remove list
`rem = [r for r in rem if rems[r[0]]]`. -/
def classify (mv cp : Bool) (add rem : List (String × String))
    (cpy : List (String × (String × Bool))) : Classified × List (String × String) :=
  let st := classifyLoop mv cp cpy add
    { moves := [], copies := [], ntg := [], add2 := [], mod2 := [], rems := remsInit rem }
  (st, rem.filter (fun r => getAssoc st.rems r.1 = some true))

/-! ## PendingTracker (`p4client._readp4stat`, perfarce.py lines 521-547)

`_readp4stat` folds the records returned by the two `p4 changes` queries
(submitted range and pending) into the node-membership set `p4stat` and the
record list `p4pending`, skipping any record whose changelist number equals
the correlated id `p4id`.  A record is modelled with its changelist number,
status, description and client, and with the node list that
`parsenodes` + `repo.changelog.nodesbetween` extract from the description
(the Mercurial repository query is abstracted to that list). -/

structure ChangeRec where
  change : Nat
  status : String
  nodes : List Nat
  desc : String
  client : String
deriving Repr, DecidableEq

/-- Entries of `p4pending`: `(c, d['status'] == 'submitted', nodes, desc, d['client'])`. -/
abbrev PendingEntry := Nat × Bool × List Nat × String × String

/-- Insertion of one entry into a list sorted by changelist number
(modelling `self.p4pending.sort()`, whose tuples order primarily by the
leading changelist number). -/
def insertPending (e : PendingEntry) : List PendingEntry → List PendingEntry
  | [] => [e]
  | x :: xs => if e.1 ≤ x.1 then e :: x :: xs else x :: insertPending e xs

/-- Sort of `p4pending` by ascending changelist number. -/
def sortPending : List PendingEntry → List PendingEntry
  | [] => []
  | x :: xs => insertPending x (sortPending xs)

/-- The local function `helper` of `_readp4stat` (perfarce.py lines 528-538):
skip the record whose number equals the correlated `p4id`, otherwise append
its pending entry and add its nodes to the membership set. -/
def readp4statHelper (p4id : Nat) (acc : List Nat × List PendingEntry) (d : ChangeRec) :
    List Nat × List PendingEntry :=
  if d.change = p4id then acc
  else (acc.1 ++ d.nodes, acc.2 ++ [(d.change, d.status == "submitted", d.nodes, d.desc, d.client)])

/-- `_readp4stat` (perfarce.py lines 521-547): `recs` is the concatenation of
the records streamed by the two `p4 changes` runs; the result is the pair
`(p4stat, p4pending)` with `p4pending` sorted. -/
def readp4stat (p4id : Nat) (recs : List ChangeRec) : List Nat × List PendingEntry :=
  let acc := recs.foldl (readp4statHelper p4id) ([], [])
  (acc.1, sortPending acc.2)

/-! ## EmbeddedReference (`parsenodes`, perfarce.py lines 412-426, and the
description built by `pushcommon`, lines 1096-1107)

The regular expression `{{mercurial (([0-9a-f]{40})(:([0-9a-f]{40}))?)}}` is
embedded as an explicit scanner over the character list: `re.search` tries a
match at every position from the left, and at a given position the optional
`:<hex40>` group is tried greedily before falling back to closing with
`}}` directly (which can never succeed on a `:`, matching the regex
backtracking behaviour). -/

/-- The character class `[0-9a-f]` of `re_hgid`. -/
def isHexDigit (c : Char) : Bool :=
  ('0' ≤ c && c ≤ '9') || ('a' ≤ c && c ≤ 'f')

/-- Match a literal character sequence, returning the remainder. -/
def stripLit : List Char → List Char → Option (List Char)
  | [], s => some s
  | _ :: _, [] => none
  | l :: ls, c :: cs => if c = l then stripLit ls cs else none

/-- Take exactly `n` hex digits, returning them and the remainder. -/
def takeHexN : Nat → List Char → Option (List Char × List Char)
  | 0, s => some ([], s)
  | _ + 1, [] => none
  | n + 1, c :: cs =>
    if isHexDigit c then (takeHexN n cs).map (fun hr => (c :: hr.1, hr.2)) else none

/-- Attempt the `re_hgid` match anchored at the start of `s`: the literal
`{{mercurial `, forty hex digits, an optional `:` plus forty hex digits,
then the closing `}}`. -/
def matchHgid (s : List Char) : Option (List Char × Option (List Char)) :=
  match stripLit ("\x7b\x7bmercurial ".toList) s with
  | none => none
  | some s1 =>
    match takeHexN 40 s1 with
    | none => none
    | some (h1, s2) =>
      match s2 with
      | ':' :: s3 =>
        match takeHexN 40 s3 with
        | some (h2, s4) =>
          match stripLit ("\x7d\x7d".toList) s4 with
          | some _ => some (h1, some h2)
          | none => none
        | none => none
      | _ =>
        match stripLit ("\x7d\x7d".toList) s2 with
        | some _ => some (h1, none)
        | none => none

/-- `re.search`: try the anchored match at every start position, leftmost
match wins. -/
def scanHgid : List Char → Option (List Char × Option (List Char))
  | [] => none
  | c :: cs =>
    match matchHgid (c :: cs) with
    | some r => some r
    | none => scanHgid cs

/-- `parsenodes` (perfarce.py lines 415-426) restricted to the textual match:
the hex node id (and the optional second range end) recovered from the first
`{{mercurial ...}}` token of a changelist description.  The subsequent
`repo.changelog.nodesbetween` expansion is a Mercurial repository query and
is outside this model. -/
def parsenodes (desc : String) : Option (String × Option String) :=
  (scanHgid desc.toList).map (fun r => (String.mk r.1, r.2.map String.mk))

/-- A well-formed forty-digit lowercase hex node id. -/
def isHex40 (h : String) : Bool :=
  h.toList.length = 40 && h.toList.all isHexDigit

/-- The reference token `'{{mercurial %s}}' % ':'.join(h)` of `pushcommon`
(perfarce.py line 1107). -/
def embedToken (hs : List String) : String :=
  "\x7b\x7bmercurial " ++ String.intercalate ":" hs ++ "\x7d\x7d"

/-- The id list `h` of `pushcommon` (perfarce.py lines 1101-1105): the hex ids
of the first and last node for a multi-node range, the single hex id otherwise. -/
def rangeIds (first last : String) (multi : Bool) : List String :=
  if multi then [first, last] else [last]

/-- The changelist description built by `pushcommon` (perfarce.py line 1107):
the node descriptions joined by `\n* * *\n`, then the embedded token. -/
def makeDesc (descs : List String) (hs : List String) : String :=
  String.intercalate "\n* * *\n" descs ++ "\n\n" ++ embedToken hs ++ "\n"

/-! ## PushEngine precheck (`pushcommon`, perfarce.py lines 1013-1046)

The repository DAG is modelled as a list of changesets with numeric node
ids, parent lists and a flag recording whether the `'p4'` extra key
(remote-changelist marker) is present.  `getpending` is abstracted as a
predicate on node ids. -/

structure Cset where
  id : Nat
  parents : List Nat
  marked : Bool
deriving Repr, DecidableEq

/-- `n.children()`: the changesets having `n` among their parents. -/
def childrenOf (repo : List Cset) (n : Nat) : List Cset :=
  repo.filter (fun c => c.parents.contains n)

/-- Parent list of a node id in the modelled repository. -/
def parentsIn (repo : List Cset) (n : Nat) : List Nat :=
  match repo.find? (fun c => c.id = n) with
  | some c => c.parents
  | none => []

/-- Whether the changeset with the given id carries the `'p4'` marker. -/
def markedIn (repo : List Cset) (n : Nat) : Bool :=
  match repo.find? (fun c => c.id = n) with
  | some c => c.marked
  | none => false

/-- `d` is a strict descendant of `n` in the modelled repository
(transitive closure of the child relation). -/
inductive IsDesc (repo : List Cset) : Nat → Nat → Prop
  | child {n d : Nat} : n ∈ parentsIn repo d → IsDesc repo n d
  | trans {n m d : Nat} : n ∈ parentsIn repo m → IsDesc repo m d → IsDesc repo n d

/-- The outer trim of `pushcommon` (perfarce.py lines 1014-1023): drop nodes
already pending from the front, then from the back, of the export range. -/
def outerTrim (pending : Nat → Bool) (nodes : List Nat) : List Nat :=
  ((nodes.dropWhile pending).reverse.dropWhile pending).reverse

/-- The non-forced precheck of `pushcommon` (perfarce.py lines 1013-1046):
after the outer trim, abort when a remaining node is itself pending or has a
child carrying the `'p4'` marker. -/
def precheck (force : Bool) (pending : Nat → Bool) (repo : List Cset) (nodes : List Nat) :
    Except String (List Nat) :=
  if force then Except.ok nodes
  else
    let nodes2 := outerTrim pending nodes
    if nodes2.any (fun n => pending n || (childrenOf repo n).any (fun c => c.marked)) then
      Except.error "can not push, changeset is already in p4"
    else Except.ok nodes2

/-- The push pipeline up to changelist creation: the boolean records whether
the flow reaches `client.change` (changelist creation), which happens only
when the precheck does not abort. -/
def pushAttempt (force : Bool) (pending : Nat → Bool) (repo : List Cset) (nodes : List Nat) :
    Except String (List Nat) × Bool :=
  match precheck force pending repo nodes with
  | Except.ok ns => (Except.ok ns, true)
  | Except.error e => (Except.error e, false)

/-! ## Author resolution (`p4client.getuser`, perfarce.py lines 567-611)

The external collaborators of `getuser` are modelled as oracles:
`regexMapped` is the result of `re.subn` + `string.capwords` when the
configured search regex matched (`none` when it did not match),
`scriptOutput` is the stripped last output line of the external script when
non-empty, and `serverEntry` is the `(FullName, Email)` pair of the
`p4 user -o` form when it carries the `Update` field with those keys.
An unset or empty `perfarce.clientuser` configuration value (both falsy in
Python) is modelled as `clientuser = none`. -/

structure UserEnv where
  clientuser : Option String
  regexMapped : Option String
  scriptOutput : Option String
  serverEntry : Option (String × String)
deriving Repr, DecidableEq

/-- The per-invocation user cache read
`self.usercache.get((user,None)) or self.usercache.get((user,client))`. -/
def lookupUserCache (cache : List ((String × Option String) × String))
    (k : String × Option String) : Option String :=
  (cache.find? (fun kv => kv.1 = k)).map (fun kv => kv.2)

/-- `getuser` (perfarce.py lines 567-611): after the cache, dispatch on the
`perfarce.clientuser` configuration — a value containing a space is a regex
mapping, a space-free value is an external script, and only an unset value
consults the server user form; in every branch the literal user name is the
fallback.  (The cache write-back matters only to later calls and is elided
from this single-call model.) -/
def getuser (cache : List ((String × Option String) × String)) (env : UserEnv)
    (user client : String) : String :=
  match lookupUserCache cache (user, none) <|> lookupUserCache cache (user, some client) with
  | some r => r
  | none =>
    match env.clientuser with
    | some cu =>
      if strContains cu ' ' then
        match env.regexMapped with
        | some u => u
        | none => user
      else
        match env.scriptOutput with
        | some r => r
        | none => user
    | none =>
      match env.serverEntry with
      | some fe => fe.1 ++ " <" ++ fe.2 ++ ">"
      | none => user

/-- Modelled from the spec's words, for refinement comparison with `getuser`:
"author resolved by first non-empty result of: server lookup → configured
regex mapping → external script hook → literal fallback". -/
def getuserSpecOrder (env : UserEnv) (user : String) : String :=
  ((env.serverEntry.map (fun fe => fe.1 ++ " <" ++ fe.2 ++ ">")) <|>
    env.regexMapped <|> env.scriptOutput).getD user

/-! ## SyncEngine pull loop (`pull`, perfarce.py lines 1163-1298)

The claim-relevant control flow of `pull` is the `try`/`finally` around the
per-changelist loop: each changelist is replayed (any remote error during an
iteration aborts the loop), the labels of each successfully replayed
changelist are accumulated, and the `finally` block emits one trailing
`.hgtags` changeset whenever any label was collected.  Replay failure is
modelled by the oracle `fails`, the labels of a changelist by the oracle
`labels`. -/

/-- The `for c in changes` loop body of `pull` (perfarce.py lines 1208-1271)
reduced to label accumulation: a failing iteration raises out of the loop,
a successful one appends the labels attached to that changelist. -/
def pullLoop (labels : Nat → List String) (fails : Nat → Bool) :
    List Nat → List String → List String × Bool
  | [], acc => (acc, false)
  | c :: rest, acc =>
    if fails c then (acc, true)
    else pullLoop labels fails rest (acc ++ labels c)

/-- `pull` (perfarce.py lines 1207-1298): run the loop, then the `finally`
block creates exactly one trailing tag-registry changeset when any label was
seen.  The result is `(number of trailing tag changesets, whether the run
re-raises an error)`. -/
def pullRun (changes : List Nat) (labels : Nat → List String) (fails : Nat → Bool) :
    Nat × Bool :=
  let r := pullLoop labels fails changes []
  ((if r.1 = [] then 0 else 1), r.2)

/-! ## ClientView (`p4client.__init__`, perfarce.py lines 200-276, and the
dispatch of `pullcommon`, lines 929-937)

`__init__` classifies a remote path: `p4notclient` when the path does not
start with `p4:`, `p4badclient` when it starts with `p4:` but not `p4://`
or when the client specification or workspace root is unusable.  A `p4://`
path without a `/` after the server part reaches
`s, c = path[5:].split('/', 1)` which raises an uncaught `ValueError`
(modelled as `valueError`).  The `p4 client -o` call and `os.path.isdir`
are oracles. -/

inductive InitError
  | notClient
  | badClient (msg : String)
  | valueError
deriving Repr, DecidableEq

/-- Result of `self.runone('client -o %s' % c, abort=False)`: not a
dictionary, an error record, or the client form with its ordered candidate
root entries `['Root'] + ['AltRoots%d' % i for i in range(9)]`
(`none` for a missing key). -/
inductive SpecResult
  | notDict
  | err (data : String)
  | spec (roots : List (Option String))
deriving Repr, DecidableEq

structure ClientData where
  server : String
  client : Option String
  part : String
  root : Option String
deriving Repr, DecidableEq

/-- Python `s.split(sep, 1)` destructured into two parts: `none` when the
separator is absent (where the Python two-target unpacking raises
`ValueError`). -/
def splitOnce (s : String) (sep : Char) : Option (String × String) :=
  if s.toList.contains sep then
    some (String.mk (s.toList.takeWhile (fun c => ¬ c = sep)),
          String.mk ((s.toList.dropWhile (fun c => ¬ c = sep)).drop 1))
  else none

/-- `p = '/'.join(q for q in p.split('/') if q)` plus the trailing `/`
normalization (perfarce.py lines 233-235). -/
def cleanpath (p : String) : String :=
  let j := String.intercalate "/"
    (((splitChar '/' p.toList).filter (fun q => ¬ q = [])).map String.mk)
  if j = "" then j else j ++ "/"

/-- The root scan `for n in ['Root'] + ...: if n in d and isdir(d[n])`
(perfarce.py lines 255-258): first present entry that is a directory. -/
def firstRoot (isdir : String → Bool) : List (Option String) → Option String
  | [] => none
  | some r :: rest => if isdir r then some r else firstRoot isdir rest
  | none :: rest => firstRoot isdir rest

/-- The client-name part of `c`: `c, p = c.split('/', 1)` when a `/` is
present, the whole of `c` otherwise (perfarce.py lines 231-237). -/
def clientName (c0 : String) : String :=
  match splitOnce c0 '/' with
  | some x => x.1
  | none => c0

/-- The partial-view tail of `c` (perfarce.py lines 231-237). -/
def partAfter (c0 : String) : String :=
  match splitOnce c0 '/' with
  | some x => cleanpath x.2
  | none => ""

/-- `p4client.__init__` (perfarce.py lines 200-276) reduced to its path
parsing and error classification.  The returned `ClientData` keeps the
fields relevant to the claims (server, client name, partial-view tail,
workspace root). -/
def clientInit (lookupSpec : String → SpecResult) (isdir : String → Bool) (path : String) :
    Except InitError ClientData :=
  if strStartsWith path "p4:" = false then Except.error InitError.notClient
  else if strStartsWith path "p4://" = false then
    Except.error (InitError.badClient (path ++ " not a p4 repository"))
  else
    match splitOnce (strDrop path 5) '/' with
    | none => Except.error InitError.valueError
    | some sc =>
      let s := if strContains sc.1 ':' then sc.1 else sc.1 ++ ":1666"
      if sc.2 = "" then Except.ok { server := s, client := none, part := "", root := none }
      else
        match lookupSpec (clientName sc.2) with
        | SpecResult.notDict =>
          Except.error (InitError.badClient (path ++ " is not a valid p4 client"))
        | SpecResult.err data =>
          Except.error (InitError.badClient (path ++ " is not a valid p4 client: " ++ data))
        | SpecResult.spec roots =>
          match firstRoot isdir roots with
          | none => Except.error (InitError.badClient "the p4 client root must exist")
          | some r =>
            Except.ok { server := s, client := some (clientName sc.2),
                        part := partAfter sc.2, root := some r }

/-- Outcome of the `p4client` construction attempt in `pullcommon` /
`pushcommon` (perfarce.py lines 929-937 and 987-993). -/
inductive Dispatch
  | fallback
  | abortCmd (msg : String)
  | proceed (c : ClientData)
  | crash
deriving Repr, DecidableEq

/-- The dispatch of `pullcommon` (perfarce.py lines 930-937): `p4notclient`
falls back to the wrapped original command, `p4badclient` aborts, any other
exception (the `ValueError` above) propagates as a crash. -/
def pullDispatch (lookupSpec : String → SpecResult) (isdir : String → Bool)
    (path : String) : Dispatch :=
  match clientInit lookupSpec isdir path with
  | Except.ok c => Dispatch.proceed c
  | Except.error InitError.notClient => Dispatch.fallback
  | Except.error (InitError.badClient m) => Dispatch.abortCmd m
  | Except.error InitError.valueError => Dispatch.crash

/-! ## HistoryCorrelator (`p4client.find`, perfarce.py lines 278-336)

`find` walks the ancestry breadth-first from the starting revision, keeping
a `seen` set, looking for a changeset whose extra data carries the `'p4'`
changelist number (oracle `marked`), optionally filtered by `p4rev`.  The
repository is abstracted by `marked` and by the `parents` function; the
Mercurial invariant that parents have strictly smaller revision numbers
justifies the explicit fuel `rev + 2` (one BFS level per strictly smaller
frontier maximum), and fuel exhaustion is kept distinguishable so that the
non-aborting null result is never produced by it.  The `base`-mode forward
walk (lines 315-322) only postprocesses a successful match and is outside
the claim modelled here. -/

/-- `for p in ctx.parents(): if p and p not in seen: seen.add(p); next.append(p)`
(perfarce.py lines 327-330), for one node's parent list. -/
def addParents (seen next : List Nat) : List Nat → List Nat × List Nat
  | [] => (seen, next)
  | p :: rest =>
    if seen.contains p then addParents seen next rest
    else addParents (seen ++ [p]) (next ++ [p]) rest

/-- One BFS level `for ctx,path in current:` (perfarce.py lines 312-330):
return the first node carrying a matching `'p4'` marker, or the next
frontier and the grown seen set. -/
def findLevel (marked : Nat → Option Nat) (parents : Nat → List Nat) (p4rev : Option Nat) :
    List Nat → List Nat → List Nat → Sum (Nat × Nat) (List Nat × List Nat)
  | [], next, seen => Sum.inr (next, seen)
  | c :: rest, next, seen =>
    match marked c with
    | some p =>
      match p4rev with
      | none => Sum.inl (c, p)
      | some q =>
        if q = p then Sum.inl (c, p)
        else
          let sn := addParents seen next (parents c)
          findLevel marked parents p4rev rest sn.2 sn.1
    | none =>
      let sn := addParents seen next (parents c)
      findLevel marked parents p4rev rest sn.2 sn.1

/-- The `while current:` loop of `find` (perfarce.py lines 309-332), with
explicit fuel: `none` is fuel exhaustion (unreachable on well-formed
repositories), `some none` an exhausted frontier, `some (some (n, p))` a
match. -/
def findBFS (marked : Nat → Option Nat) (parents : Nat → List Nat) (p4rev : Option Nat) :
    Nat → List Nat → List Nat → Option (Option (Nat × Nat))
  | 0, _, _ => none
  | f + 1, current, seen =>
    if current.isEmpty then some none
    else
      match findLevel marked parents p4rev current [] seen with
      | Sum.inl r => some (some r)
      | Sum.inr ns => findBFS marked parents p4rev f ns.1 ns.2

/-- `find` (perfarce.py lines 278-336): BFS from `rev`; on no match, abort
with `'no p4 changelist revision found'` unless `abort` is false, in which
case return the null node (modelled as `none`) and changelist number `0`. -/
def find (marked : Nat → Option Nat) (parents : Nat → List Nat) (rev : Nat)
    (p4rev : Option Nat) (abort : Bool) : Except String (Option Nat × Nat) :=
  match findBFS marked parents p4rev (rev + 2) [rev] [] with
  | some (some np) => Except.ok (some np.1, np.2)
  | some none =>
    if abort then Except.error "no p4 changelist revision found"
    else Except.ok (none, 0)
  | none => Except.error "bfs fuel exhausted"

/-- `a` is an ancestor of `r` (reflexive-transitive closure of the parent
relation), the ancestor set walked by `find`. -/
inductive Reach (parents : Nat → List Nat) : Nat → Nat → Prop
  | refl (r : Nat) : Reach parents r r
  | step {r m a : Nat} : Reach parents r m → a ∈ parents m → Reach parents r a

/-! ## PushEngine operation sequence and rollback (`push`, perfarce.py lines
1488-1575, and `revert`, lines 1616-1642)

After `use = client.change(use, desc, jobs)` creates or reuses the pending
changelist, `push` issues the file operations in the fixed order
copy, (edit-for-)move, integrate, edit, write-content, add, delete, then
optionally submits; the whole sequence is wrapped in
`try: ... except Exception: revert(ui, repo, use); raise`.  The remote
changelist is modelled by the files opened in it, its attached jobs and its
submitted/deleted status; each remote command either completes its effect or
raises without effect (the failing step is injected by `failAt`), and the
rollback commands of `revert` are modelled by their server-side effect.
The `submit` method (perfarce.py lines 885-902) is not atomic: after the
server accepts the submission it runs `self.sync(0)` under `keep=False`
(lines 897-899), which can raise.  It is therefore modelled as two steps,
the server-side `submit` acceptance followed by the `cleanup` sync, so that
an exception raised after the acceptance is representable. -/

inductive P4Op
  | copy (src dst : String)
  | move (src dst : String)
  | integrate (src dst : String)
  | edit (f : String)
  | write (f : String)
  | addf (f : String)
  | deletef (f : String)
  | submit
  | cleanup
deriving Repr, DecidableEq

structure CLState where
  num : Nat
  openFiles : List String
  jobs : List String
  submitted : Bool
  deleted : Bool
deriving Repr, DecidableEq

/-- Effect of one successful operation on the changelist: copy, move,
integrate, edit, add and delete open their target file in the changelist,
writing file content touches no changelist state, submit (the server-side
acceptance) closes the changelist's open files and marks it submitted, and
cleanup (the `keep=False` workspace sync `self.sync(0)` inside `submit`,
perfarce.py lines 897-899) touches no changelist state — its significance
is that it can raise after the submission was accepted. -/
def applyOp (op : P4Op) (cl : CLState) : CLState :=
  match op with
  | P4Op.copy _ dst => { cl with openFiles := cl.openFiles ++ [dst] }
  | P4Op.move _ dst => { cl with openFiles := cl.openFiles ++ [dst] }
  | P4Op.integrate _ dst => { cl with openFiles := cl.openFiles ++ [dst] }
  | P4Op.edit f => { cl with openFiles := cl.openFiles ++ [f] }
  | P4Op.write _ => cl
  | P4Op.addf f => { cl with openFiles := cl.openFiles ++ [f] }
  | P4Op.deletef f => { cl with openFiles := cl.openFiles ++ [f] }
  | P4Op.submit => { cl with openFiles := [], submitted := true }
  | P4Op.cleanup => cl

/-- The operation sequence of the `try` block of `push` (perfarce.py lines
1521-1571) in source order: copies, opening-for-move edits then moves,
integrates, edits of modified files, content writes, adds, deletes, and the
optional submit — whose `submit` method performs the server-side acceptance
and then, when `keep` is false, the workspace cleanup sync (perfarce.py
lines 885-902). -/
def pushOps (moves : List (String × String × String)) (copies ntg : List (String × String))
    (mod mod2 add rem : List (String × String)) (dosubmit keep : Bool) : List P4Op :=
  copies.map (fun c => P4Op.copy c.1 c.2)
    ++ moves.map (fun m => P4Op.edit m.1)
    ++ moves.map (fun m => P4Op.move m.1 m.2.1)
    ++ ntg.map (fun f => P4Op.integrate f.1 f.2)
    ++ (mod ++ mod2).map (fun f => P4Op.edit f.1)
    ++ (mod ++ add ++ mod2).map (fun f => P4Op.write f.1)
    ++ add.map (fun f => P4Op.addf f.1)
    ++ rem.map (fun f => P4Op.deletef f.1)
    ++ (if dosubmit then P4Op.submit :: (if keep then [] else [P4Op.cleanup]) else [])

/-- `revert` (perfarce.py lines 1616-1642) applied to the one changelist
being rolled back: `p4 revert` closes every file the describe form lists as
open in it, `p4 fix -d` detaches every job, and `p4 change -d` deletes the
changelist (the server accepts the delete only for an emptied pending
changelist; `abort=False` swallows the refusal otherwise). -/
def revertChangelist (cl : CLState) : CLState :=
  let cl1 := { cl with openFiles := [] }
  let cl2 := { cl1 with jobs := [] }
  if cl2.submitted = false ∧ cl2.openFiles = [] then { cl2 with deleted := true } else cl2

/-- Run the operation sequence against the changelist; `failAt = some k`
raises at the `k`-th remaining operation, upon which the `except` handler
runs `revert` on the changelist and re-raises (the error value carries the
post-rollback changelist state). -/
def runOps : List P4Op → Option Nat → CLState → Except (String × CLState) CLState
  | [], _, cl => Except.ok cl
  | op :: rest, failAt, cl =>
    match failAt with
    | some 0 => Except.error ("p4 operation failed", revertChangelist cl)
    | some (k + 1) => runOps rest (some k) (applyOp op cl)
    | none => runOps rest none (applyOp op cl)

/-! ## Lemmas about the pending tracker (claim C4) -/

theorem readp4stat_foldl_filter (p4id : Nat) (recs : List ChangeRec)
    (acc : List Nat × List PendingEntry) :
    recs.foldl (readp4statHelper p4id) acc
      = (recs.filter (fun r => ¬ r.change = p4id)).foldl (readp4statHelper p4id) acc := by
  induction recs generalizing acc with
  | nil => rfl
  | cons r rest ih =>
    by_cases h : r.change = p4id
    · simpa [List.filter_cons, h, readp4statHelper] using ih acc
    · have hf : List.filter (fun r => decide (¬ r.change = p4id)) (r :: rest)
          = r :: List.filter (fun r => decide (¬ r.change = p4id)) rest := by
        simp [List.filter_cons, h]
      rw [hf, List.foldl_cons, List.foldl_cons, ih]

theorem mem_readp4stat_foldl (p4id : Nat) (recs : List ChangeRec)
    (acc : List Nat × List PendingEntry) (n : Nat) :
    n ∈ (recs.foldl (readp4statHelper p4id) acc).1
      ↔ n ∈ acc.1 ∨ ∃ r ∈ recs, ¬ r.change = p4id ∧ n ∈ r.nodes := by
  induction recs generalizing acc with
  | nil => simp
  | cons r rest ih =>
    rw [List.foldl_cons]
    by_cases h : r.change = p4id
    · rw [show readp4statHelper p4id acc r = acc from by simp [readp4statHelper, h]]
      rw [ih]
      constructor
      · rintro (ha | ⟨r', hr', hne, hn⟩)
        · exact Or.inl ha
        · exact Or.inr ⟨r', List.mem_cons_of_mem _ hr', hne, hn⟩
      · rintro (ha | ⟨r', hr', hne, hn⟩)
        · exact Or.inl ha
        · rcases List.mem_cons.mp hr' with rfl | hr'
          · exact absurd h hne
          · exact Or.inr ⟨r', hr', hne, hn⟩
    · rw [show readp4statHelper p4id acc r
          = (acc.1 ++ r.nodes, acc.2 ++ [(r.change, r.status == "submitted", r.nodes, r.desc,
              r.client)]) from by simp [readp4statHelper, h]]
      rw [ih]
      simp only [List.mem_append]
      constructor
      · rintro (⟨ha | hn⟩ | ⟨r', hr', hne, hn⟩)
        · exact Or.inl ha
        · exact Or.inr ⟨r, List.mem_cons_self r rest, h, hn⟩
        · exact Or.inr ⟨r', List.mem_cons_of_mem _ hr', hne, hn⟩
      · rintro (ha | ⟨r', hr', hne, hn⟩)
        · exact Or.inl (Or.inl ha)
        · rcases List.mem_cons.mp hr' with rfl | hr'
          · exact Or.inl (Or.inr hn)
          · exact Or.inr ⟨r', hr', hne, hn⟩

/-- C4: a changelist record whose number equals the currently correlated base
changelist id is skipped entirely when the pending cache is rebuilt — the
cache equals the one built with all such records removed, and a node is in
the membership set exactly when some record with a different changelist
number lists it. -/
theorem readp4stat_excludes_correlated (p4id : Nat) (recs : List ChangeRec) :
    readp4stat p4id recs = readp4stat p4id (recs.filter (fun r => ¬ r.change = p4id)) ∧
    ∀ n : Nat, n ∈ (readp4stat p4id recs).1
      ↔ ∃ r ∈ recs, ¬ r.change = p4id ∧ n ∈ r.nodes := by
  constructor
  · unfold readp4stat
    rw [readp4stat_foldl_filter]
  · intro n
    unfold readp4stat
    simpa using mem_readp4stat_foldl p4id recs ([], []) n

/-! ## Lemmas about the pull loop (claim C8) -/

theorem pullLoop_skip (labels : Nat → List String) (fails : Nat → Bool)
    (pre rest : List Nat) (acc : List String)
    (hpre : ∀ x ∈ pre, fails x = false) :
    pullLoop labels fails (pre ++ rest) acc
      = pullLoop labels fails rest (acc ++ pre.flatMap labels) := by
  induction pre generalizing acc with
  | nil => simp
  | cons x xs ih =>
    have hx : fails x = false := hpre x (List.mem_cons_self x xs)
    rw [List.cons_append]
    rw [show pullLoop labels fails (x :: (xs ++ rest)) acc
        = pullLoop labels fails (xs ++ rest) (acc ++ labels x) from by simp [pullLoop, hx]]
    rw [ih (acc ++ labels x) (fun y hy => hpre y (List.mem_cons_of_mem _ hy))]
    simp [List.flatMap_cons, List.append_assoc]

theorem pullLoop_acc_ne_nil (labels : Nat → List String) (fails : Nat → Bool)
    (l : List Nat) (acc : List String) (hacc : ¬ acc = []) :
    ¬ (pullLoop labels fails l acc).1 = [] := by
  induction l generalizing acc with
  | nil => simpa [pullLoop] using hacc
  | cons c rest ih =>
    by_cases hc : fails c = true
    · simpa [pullLoop, hc] using hacc
    · rw [show pullLoop labels fails (c :: rest) acc
          = pullLoop labels fails rest (acc ++ labels c) from by
        simp [pullLoop, Bool.eq_false_iff.mpr hc]]
      exact ih (acc ++ labels c) (by simp [hacc])

theorem pullLoop_raises (labels : Nat → List String) (fails : Nat → Bool)
    (l : List Nat) (acc : List String) (h : ∃ x ∈ l, fails x = true) :
    (pullLoop labels fails l acc).2 = true := by
  induction l generalizing acc with
  | nil => simp at h
  | cons c rest ih =>
    by_cases hc : fails c = true
    · simp [pullLoop, hc]
    · rw [show pullLoop labels fails (c :: rest) acc
          = pullLoop labels fails rest (acc ++ labels c) from by
        simp [pullLoop, Bool.eq_false_iff.mpr hc]]
      rcases h with ⟨x, hx, hfx⟩
      rcases List.mem_cons.mp hx with rfl | hx
      · exact absurd hfx hc
      · exact ih (acc ++ labels c) ⟨x, hx, hfx⟩

/-- C8: when some changelist `c` in the pulled range is replayed successfully
and carries at least one label, the run creates exactly one trailing
tag-registry changeset — and it does so even when a later changelist of the
same run raises an error (in which case the error is still propagated). -/
theorem pull_trailing_tag_changeset (pre post : List Nat) (c : Nat)
    (labels : Nat → List String) (fails : Nat → Bool)
    (hpre : ∀ x ∈ pre, fails x = false) (hc : fails c = false) (hl : ¬ labels c = []) :
    (pullRun (pre ++ c :: post) labels fails).1 = 1 ∧
    ((∃ x ∈ post, fails x = true) → (pullRun (pre ++ c :: post) labels fails).2 = true) := by
  have h1 : pullLoop labels fails (pre ++ c :: post) []
      = pullLoop labels fails post ((pre.flatMap labels) ++ labels c) := by
    rw [pullLoop_skip labels fails pre (c :: post) [] hpre]
    simp [pullLoop, hc]
  constructor
  · have hne := pullLoop_acc_ne_nil labels fails post ((pre.flatMap labels) ++ labels c)
      (by simp [hl])
    simp [pullRun, h1, hne]
  · intro hex
    have := pullLoop_raises labels fails post ((pre.flatMap labels) ++ labels c) hex
    simp [pullRun, h1, this]

/-- C8 witness: changelist 101 carries label `v1` and changelist 102 fails;
one trailing tag changeset is created and the error propagates. -/
theorem pull_trailing_tag_changeset_witness :
    (pullRun [101, 102] (fun c => if c = 101 then ["v1"] else []) (fun c => c = 102)).1 = 1 ∧
    ((∃ x ∈ [102], (fun c : Nat => decide (c = 102)) x = true) →
      (pullRun [101, 102] (fun c => if c = 101 then ["v1"] else []) (fun c => c = 102)).2
        = true) := by
  exact pull_trailing_tag_changeset [] [102] 101 (fun c => if c = 101 then ["v1"] else [])
    (fun c => c = 102) (by intro x hx; simp at hx) (by decide) (by decide)

/-! ## Lemmas about the push rollback (claim C1) -/

theorem runOps_fail_rollback (ops : List P4Op) (k : Nat) (cl : CLState)
    (hk : k < ops.length) (hsub : P4Op.submit ∉ ops.take k) (hcl : cl.submitted = false) :
    ∃ st : CLState, runOps ops (some k) cl = Except.error ("p4 operation failed", st) ∧
      st.openFiles = [] ∧ st.jobs = [] ∧ st.deleted = true := by
  induction ops generalizing k cl with
  | nil => simp at hk
  | cons op rest ih =>
    cases k with
    | zero =>
      refine ⟨revertChangelist cl, rfl, ?_, ?_, ?_⟩ <;> simp [revertChangelist, hcl]
    | succ k =>
      rw [List.take_succ_cons] at hsub
      have hop : ¬ op = P4Op.submit := fun h => hsub (h ▸ List.mem_cons_self op _)
      have hrest : P4Op.submit ∉ rest.take k := fun h => hsub (List.mem_cons_of_mem _ h)
      have hsubmitted : (applyOp op cl).submitted = false := by
        cases op
        case submit => exact absurd rfl hop
        all_goals simpa [applyOp] using hcl
      have := ih k (applyOp op cl) (Nat.lt_of_succ_lt_succ (by simpa using hk))
        hrest hsubmitted
      simpa [runOps] using this

theorem applyOp_deleted (op : P4Op) (cl : CLState) :
    (applyOp op cl).deleted = cl.deleted := by
  cases op <;> simp [applyOp]

theorem applyOp_submitted_true (op : P4Op) (cl : CLState) (h : cl.submitted = true) :
    (applyOp op cl).submitted = true := by
  cases op <;> simp [applyOp, h]

theorem runOps_fail_submitted (ops : List P4Op) (k : Nat) (cl : CLState)
    (hk : k < ops.length) (hsub : cl.submitted = true) (hdel : cl.deleted = false) :
    ∃ st : CLState, runOps ops (some k) cl = Except.error ("p4 operation failed", st) ∧
      st.submitted = true ∧ st.deleted = false := by
  induction ops generalizing k cl with
  | nil => simp at hk
  | cons op rest ih =>
    cases k with
    | zero =>
      refine ⟨revertChangelist cl, rfl, ?_, ?_⟩ <;> simp [revertChangelist, hsub, hdel]
    | succ k =>
      have := ih k (applyOp op cl) (Nat.lt_of_succ_lt_succ (by simpa using hk))
        (applyOp_submitted_true op cl hsub) (by rw [applyOp_deleted]; exact hdel)
      simpa [runOps] using this

theorem runOps_fail_after_submit (ops : List P4Op) (k : Nat) (cl : CLState)
    (hk : k < ops.length) (hmem : P4Op.submit ∈ ops.take k) (hdel : cl.deleted = false) :
    ∃ st : CLState, runOps ops (some k) cl = Except.error ("p4 operation failed", st) ∧
      st.submitted = true ∧ st.deleted = false := by
  induction ops generalizing k cl with
  | nil => simp at hk
  | cons op rest ih =>
    cases k with
    | zero => simp at hmem
    | succ k =>
      rw [List.take_succ_cons] at hmem
      rcases List.mem_cons.mp hmem with heq | hmem2
      · have hsubm : (applyOp op cl).submitted = true := by
          rw [← heq]
          simp [applyOp]
        have := runOps_fail_submitted rest k (applyOp op cl)
          (Nat.lt_of_succ_lt_succ (by simpa using hk)) hsubm
          (by rw [applyOp_deleted]; exact hdel)
        simpa [runOps] using this
      · have := ih k (applyOp op cl) (Nat.lt_of_succ_lt_succ (by simpa using hk)) hmem2
          (by rw [applyOp_deleted]; exact hdel)
        simpa [runOps] using this

/-- C1 counterexample: a push of one added file with submit requested and
`keep=False` fails at the workspace-cleanup sync inside `submit`
(perfarce.py lines 897-899), after the server accepted the submission (step
3 of the sequence, right after the submit acceptance at step 2).  The
rollback handler still runs and the error is re-raised, but the changelist
is already submitted and is not deleted — contradicting the claim that
every failure in the copy/.../submit sequence ends with the changelist
deleted. -/
theorem push_submit_cleanup_counterexample :
    pushOps [] [] [] [] [] [("a.txt", "")] [] true false
      = [P4Op.write "a.txt", P4Op.addf "a.txt", P4Op.submit, P4Op.cleanup] ∧
    runOps (pushOps [] [] [] [] [] [("a.txt", "")] [] true false) (some 3)
        (CLState.mk 7 [] ["J1"] false false)
      = Except.error ("p4 operation failed", CLState.mk 7 [] [] true false) ∧
    (CLState.mk 7 [] [] true false).submitted = true ∧
    (CLState.mk 7 [] [] true false).deleted = false :=
  ⟨rfl, rfl, rfl, rfl⟩

/-- C1 (amended): whenever an operation of the
copy/move/integrate/edit/write/add/delete/submit sequence raises after the
remote changelist has been created or reused, the handler runs `revert` and
re-raises the error.  While the changelist is still pending — the
server-side submit has not yet taken effect at the failing step — the
rollback is complete: every file opened in the changelist is reverted,
every job fix is removed, and the changelist is deleted.  When the failure
strikes after the server accepted the submission (the `keep=False` cleanup
sync inside `submit`), the changelist remains submitted and is not deleted
(the delete is refused by the server and swallowed). -/
theorem push_failure_rolls_back (moves : List (String × String × String))
    (copies ntg mod mod2 add rem : List (String × String)) (dosubmit keep : Bool)
    (k : Nat) (cl : CLState) (hcl : cl.submitted = false) (hdel : cl.deleted = false)
    (hk : k < (pushOps moves copies ntg mod mod2 add rem dosubmit keep).length) :
    (P4Op.submit ∉ (pushOps moves copies ntg mod mod2 add rem dosubmit keep).take k →
      ∃ st : CLState,
        runOps (pushOps moves copies ntg mod mod2 add rem dosubmit keep) (some k) cl
          = Except.error ("p4 operation failed", st) ∧
        st.openFiles = [] ∧ st.jobs = [] ∧ st.deleted = true) ∧
    (P4Op.submit ∈ (pushOps moves copies ntg mod mod2 add rem dosubmit keep).take k →
      ∃ st : CLState,
        runOps (pushOps moves copies ntg mod mod2 add rem dosubmit keep) (some k) cl
          = Except.error ("p4 operation failed", st) ∧
        st.submitted = true ∧ st.deleted = false) :=
  ⟨fun hsub => runOps_fail_rollback _ k cl hk hsub hcl,
   fun hmem => runOps_fail_after_submit _ k cl hk hmem hdel⟩

/-- C1 witness: on a push of one added file with submit requested and
`keep=False`, a failure at the add step (still pending) rolls the
changelist back completely, while a failure at the post-submit cleanup
leaves it submitted and undeleted. -/
theorem push_failure_rolls_back_witness :
    (∃ st : CLState,
      runOps (pushOps [] [] [] [] [] [("a.txt", "")] [] true false) (some 1)
          (CLState.mk 7 [] ["J1"] false false)
        = Except.error ("p4 operation failed", st) ∧
      st.openFiles = [] ∧ st.jobs = [] ∧ st.deleted = true) ∧
    (∃ st : CLState,
      runOps (pushOps [] [] [] [] [] [("a.txt", "")] [] true false) (some 3)
          (CLState.mk 7 [] ["J1"] false false)
        = Except.error ("p4 operation failed", st) ∧
      st.submitted = true ∧ st.deleted = false) :=
  ⟨(push_failure_rolls_back [] [] [] [] [] [("a.txt", "")] [] true false 1
      (CLState.mk 7 [] ["J1"] false false) rfl rfl (by decide)).1 (by decide),
   (push_failure_rolls_back [] [] [] [] [] [("a.txt", "")] [] true false 3
      (CLState.mk 7 [] ["J1"] false false) rfl rfl (by decide)).2 (by decide)⟩

/-! ## Lemmas about client construction (claim C9) -/

theorem strStartsWith_p4_of_scheme (path : String)
    (h : strStartsWith path "p4://" = true) : strStartsWith path "p4:" = true := by
  unfold strStartsWith at h ⊢
  rw [List.isPrefixOf_iff_prefix] at h ⊢
  exact List.IsPrefix.trans (by decide) h

/-- C9 counterexample: the path `p4://hostonly` matches the remote scheme but
lacks the client separator, and client construction fails with the
unclassified unpack error (a crash in the command dispatch), not with the
fatal client-invalid error; while the path `p4:x` fails with the fatal
client-invalid error, not with the non-fatal not-a-client error. -/
theorem clientInit_unclassified_crash :
    strStartsWith "p4://hostonly" "p4:" = true ∧
    clientInit (fun _ => SpecResult.notDict) (fun _ => false) "p4://hostonly"
      = Except.error InitError.valueError ∧
    pullDispatch (fun _ => SpecResult.notDict) (fun _ => false) "p4://hostonly"
      = Dispatch.crash ∧
    strStartsWith "p4:x" "p4://" = false ∧
    clientInit (fun _ => SpecResult.notDict) (fun _ => false) "p4:x"
      = Except.error (InitError.badClient "p4:x not a p4 repository") :=
  ⟨by decide, rfl, rfl, by decide, rfl⟩

/-- C9 (amended): a path outside the `p4:` scheme fails with the non-fatal
not-a-client error and the command falls back to the original handler; a
path in the `p4:` scheme that is not a `p4://` URL, or whose client spec is
unusable (no form, error form, or no existing workspace root), fails with
the fatal client-invalid error and the command aborts; a `p4://` URL with
no `/` after the server part crashes with an unclassified unpack error. -/
theorem clientInit_classification (lookupSpec : String → SpecResult) (isdir : String → Bool)
    (path : String) :
    (strStartsWith path "p4:" = false →
      clientInit lookupSpec isdir path = Except.error InitError.notClient ∧
      pullDispatch lookupSpec isdir path = Dispatch.fallback) ∧
    (strStartsWith path "p4:" = true → strStartsWith path "p4://" = false →
      clientInit lookupSpec isdir path
          = Except.error (InitError.badClient (path ++ " not a p4 repository")) ∧
      pullDispatch lookupSpec isdir path
          = Dispatch.abortCmd (path ++ " not a p4 repository")) ∧
    (strStartsWith path "p4://" = true → splitOnce (strDrop path 5) '/' = none →
      clientInit lookupSpec isdir path = Except.error InitError.valueError ∧
      pullDispatch lookupSpec isdir path = Dispatch.crash) ∧
    (∀ sc : String × String, strStartsWith path "p4://" = true →
      splitOnce (strDrop path 5) '/' = some sc → ¬ sc.2 = "" →
      lookupSpec (clientName sc.2) = SpecResult.notDict →
      clientInit lookupSpec isdir path
          = Except.error (InitError.badClient (path ++ " is not a valid p4 client")) ∧
      pullDispatch lookupSpec isdir path
          = Dispatch.abortCmd (path ++ " is not a valid p4 client")) ∧
    (∀ (sc : String × String) (data : String), strStartsWith path "p4://" = true →
      splitOnce (strDrop path 5) '/' = some sc → ¬ sc.2 = "" →
      lookupSpec (clientName sc.2) = SpecResult.err data →
      clientInit lookupSpec isdir path
          = Except.error (InitError.badClient
              (path ++ " is not a valid p4 client: " ++ data)) ∧
      pullDispatch lookupSpec isdir path
          = Dispatch.abortCmd (path ++ " is not a valid p4 client: " ++ data)) ∧
    (∀ (sc : String × String) (roots : List (Option String)),
      strStartsWith path "p4://" = true →
      splitOnce (strDrop path 5) '/' = some sc → ¬ sc.2 = "" →
      lookupSpec (clientName sc.2) = SpecResult.spec roots → firstRoot isdir roots = none →
      clientInit lookupSpec isdir path
          = Except.error (InitError.badClient "the p4 client root must exist") ∧
      pullDispatch lookupSpec isdir path
          = Dispatch.abortCmd "the p4 client root must exist") := by
  refine ⟨?_, ?_, ?_, ?_, ?_, ?_⟩
  · intro h
    have hci : clientInit lookupSpec isdir path = Except.error InitError.notClient := by
      simp [clientInit, h]
    exact ⟨hci, by simp [pullDispatch, hci]⟩
  · intro h1 h2
    have hci : clientInit lookupSpec isdir path
        = Except.error (InitError.badClient (path ++ " not a p4 repository")) := by
      simp [clientInit, h1, h2]
    exact ⟨hci, by simp [pullDispatch, hci]⟩
  · intro h1 hsplit
    have h0 := strStartsWith_p4_of_scheme path h1
    have hci : clientInit lookupSpec isdir path = Except.error InitError.valueError := by
      simp [clientInit, h0, h1, hsplit]
    exact ⟨hci, by simp [pullDispatch, hci]⟩
  · intro sc h1 hsplit hne hlk
    have h0 := strStartsWith_p4_of_scheme path h1
    have hci : clientInit lookupSpec isdir path
        = Except.error (InitError.badClient (path ++ " is not a valid p4 client")) := by
      simp [clientInit, h0, h1, hsplit, hne, hlk]
    exact ⟨hci, by simp [pullDispatch, hci]⟩
  · intro sc data h1 hsplit hne hlk
    have h0 := strStartsWith_p4_of_scheme path h1
    have hci : clientInit lookupSpec isdir path
        = Except.error (InitError.badClient (path ++ " is not a valid p4 client: " ++ data)) := by
      simp [clientInit, h0, h1, hsplit, hne, hlk]
    exact ⟨hci, by simp [pullDispatch, hci]⟩
  · intro sc roots h1 hsplit hne hlk hroot
    have h0 := strStartsWith_p4_of_scheme path h1
    have hci : clientInit lookupSpec isdir path
        = Except.error (InitError.badClient "the p4 client root must exist") := by
      simp [clientInit, h0, h1, hsplit, hne, hlk, hroot]
    exact ⟨hci, by simp [pullDispatch, hci]⟩

/-- C9 witness: a `p4://` path whose client form is not returned as a
dictionary fails with the fatal client-invalid error and aborts. -/
theorem clientInit_classification_witness :
    clientInit (fun _ => SpecResult.notDict) (fun _ => false) "p4://h/c"
        = Except.error (InitError.badClient ("p4://h/c" ++ " is not a valid p4 client")) ∧
    pullDispatch (fun _ => SpecResult.notDict) (fun _ => false) "p4://h/c"
        = Dispatch.abortCmd ("p4://h/c" ++ " is not a valid p4 client") :=
  (clientInit_classification (fun _ => SpecResult.notDict) (fun _ => false)
    "p4://h/c").2.2.2.1 ("h", "c") (by decide) rfl (by decide) rfl

/-! ## Lemmas about author resolution (claim C7) -/

/-- C7 counterexample: with the client-user mapping configured as a
space-containing regex that matches, the code returns the regex-mapped name
even though the server lookup would also produce a result; the spec's
claimed fallback order (server lookup first) would return the server
result instead. -/
theorem getuser_order_counterexample :
    getuser [] (UserEnv.mk (some "a b") (some "Mapped") (some "Script")
        (some ("Frank", "frank@example.com"))) "joe" "cl" = "Mapped" ∧
    getuserSpecOrder (UserEnv.mk (some "a b") (some "Mapped") (some "Script")
        (some ("Frank", "frank@example.com"))) "joe" = "Frank <frank@example.com>" ∧
    ¬ getuser [] (UserEnv.mk (some "a b") (some "Mapped") (some "Script")
          (some ("Frank", "frank@example.com"))) "joe" "cl"
        = getuserSpecOrder (UserEnv.mk (some "a b") (some "Mapped") (some "Script")
          (some ("Frank", "frank@example.com"))) "joe" :=
  ⟨rfl, rfl, by decide⟩

/-- C7 (amended): with an empty per-invocation cache the author is resolved
by exactly one mechanism selected by the configuration: the regex mapping
when the client-user value contains a space, the script hook when it is
configured without a space, and the server user lookup only when no
client-user value is configured; in every case the literal remote user name
is the fallback when that mechanism produces nothing. -/
theorem getuser_dispatch (env : UserEnv) (user client : String) :
    (env.clientuser = none →
      getuser [] env user client
        = (env.serverEntry.map (fun fe => fe.1 ++ " <" ++ fe.2 ++ ">")).getD user) ∧
    (∀ cu, env.clientuser = some cu → strContains cu ' ' = true →
      getuser [] env user client = env.regexMapped.getD user) ∧
    (∀ cu, env.clientuser = some cu → strContains cu ' ' = false →
      getuser [] env user client = env.scriptOutput.getD user) := by
  refine ⟨?_, ?_, ?_⟩
  · intro h
    cases hse : env.serverEntry <;> simp [getuser, lookupUserCache, h, hse]
  · intro cu h hsp
    cases hr : env.regexMapped <;> simp [getuser, lookupUserCache, h, hsp, hr]
  · intro cu h hsp
    cases hs : env.scriptOutput <;> simp [getuser, lookupUserCache, h, hsp, hs]

/-- C7 witness: with no client-user mapping configured, the server lookup
result is used. -/
theorem getuser_dispatch_witness :
    getuser [] (UserEnv.mk none none none (some ("Ann", "ann@x"))) "joe" "cl"
      = "Ann <ann@x>" := by
  have := (getuser_dispatch (UserEnv.mk none none none (some ("Ann", "ann@x"))) "joe" "cl").1 rfl
  simpa using this

/-! ## Lemmas about the push precheck (claim C6) -/

/-- C6 counterexample: node 0 has the marked changeset 2 as a strict
descendant (through the unmarked child 1) and is not pending, yet the
non-forced precheck accepts the range and the push proceeds to changelist
creation: the already-exported abort inspects only immediate children. -/
theorem precheck_descendant_counterexample :
    IsDesc [Cset.mk 0 [] false, Cset.mk 1 [0] false, Cset.mk 2 [1] true] 0 2 ∧
    markedIn [Cset.mk 0 [] false, Cset.mk 1 [0] false, Cset.mk 2 [1] true] 2 = true ∧
    outerTrim (fun _ => false) [0] = [0] ∧
    pushAttempt false (fun _ => false)
        [Cset.mk 0 [] false, Cset.mk 1 [0] false, Cset.mk 2 [1] true] [0]
      = (Except.ok [0], true) := by
  refine ⟨@IsDesc.trans _ 0 1 2 ?_ (@IsDesc.child _ 1 2 ?_), rfl, rfl, rfl⟩
  · show (0 : Nat) ∈ parentsIn [Cset.mk 0 [] false, Cset.mk 1 [0] false, Cset.mk 2 [1] true] 1
    decide
  · show (1 : Nat) ∈ parentsIn [Cset.mk 0 [] false, Cset.mk 1 [0] false, Cset.mk 2 [1] true] 2
    decide

/-- C6 (amended): for a non-forced push, after outer-trimming
already-pending nodes at either end of the export range, the push aborts
with the already-exported error — and never reaches changelist creation —
whenever a remaining node is itself pending or has an immediate child
carrying the remote-changelist marker. -/
theorem precheck_aborts_on_pending_or_marked_child (pending : Nat → Bool)
    (repo : List Cset) (nodes : List Nat)
    (h : ∃ n ∈ outerTrim pending nodes,
      pending n = true ∨ ∃ c ∈ repo, n ∈ c.parents ∧ c.marked = true) :
    pushAttempt false pending repo nodes
      = (Except.error "can not push, changeset is already in p4", false) := by
  have hany : (outerTrim pending nodes).any
      (fun n => pending n || (childrenOf repo n).any (fun c => c.marked)) = true := by
    rcases h with ⟨n, hn, hcase⟩
    rw [List.any_eq_true]
    refine ⟨n, hn, ?_⟩
    rcases hcase with hp | ⟨c, hc, hpar, hm⟩
    · simp [hp]
    · have hcm : (childrenOf repo n).any (fun c => c.marked) = true := by
        rw [List.any_eq_true]
        refine ⟨c, ?_, hm⟩
        simp [childrenOf, List.mem_filter, hc, hpar]
      simp [hcm]
  simp [pushAttempt, precheck, hany]

/-- C6 witness: a node whose immediate child carries the marker makes the
non-forced push abort before changelist creation. -/
theorem precheck_aborts_witness :
    pushAttempt false (fun _ => false) [Cset.mk 9 [5] true] [5]
      = (Except.error "can not push, changeset is already in p4", false) :=
  precheck_aborts_on_pending_or_marked_child (fun _ => false) [Cset.mk 9 [5] true] [5]
    ⟨5, by decide, Or.inr ⟨Cset.mk 9 [5] true, by decide, by decide, rfl⟩⟩

/-! ## Lemmas about the file classifier (claims C2 and C3) -/

theorem getAssoc_setAssoc_self (m : List (String × Bool)) (k : String) (v : Bool) :
    getAssoc (setAssoc m k v) k = some v := by
  induction m with
  | nil => simp [setAssoc, getAssoc]
  | cons kv rest ih =>
    by_cases h : kv.1 = k
    · simp [setAssoc, getAssoc, h]
    · simp [setAssoc, getAssoc, h, ih]

theorem getAssoc_setAssoc_ne (m : List (String × Bool)) (k k' : String) (v : Bool)
    (h : ¬ k = k') : getAssoc (setAssoc m k v) k' = getAssoc m k' := by
  induction m with
  | nil => simp [setAssoc, getAssoc, h]
  | cons kv rest ih =>
    by_cases hk : kv.1 = k
    · simp [setAssoc, getAssoc, hk, h]
    · simp [setAssoc, getAssoc, hk, ih]

theorem getAssoc_foldl_setAssoc_true (rem : List (String × String)) (r : String)
    (m0 : List (String × Bool))
    (h : r ∈ rem.map Prod.fst ∨ getAssoc m0 r = some true) :
    getAssoc (rem.foldl (fun m f => setAssoc m f.1 true) m0) r = some true := by
  induction rem generalizing m0 with
  | nil =>
    rcases h with hmem | hm0
    · simp at hmem
    · simpa using hm0
  | cons f rest ih =>
    rw [List.foldl_cons]
    apply ih
    by_cases hf : f.1 = r
    · exact Or.inr (hf ▸ getAssoc_setAssoc_self m0 f.1 true)
    · rcases h with hmem | hm0
      · rw [List.map_cons] at hmem
        rcases List.mem_cons.mp hmem with hr | hr
        · exact absurd hr.symm hf
        · exact Or.inl hr
      · exact Or.inr (by rw [getAssoc_setAssoc_ne m0 f.1 r true hf]; exact hm0)

theorem getAssoc_remsInit_of_mem (rem : List (String × String)) (r : String)
    (hr : r ∈ rem.map Prod.fst) : getAssoc (remsInit rem) r = some true :=
  getAssoc_foldl_setAssoc_true rem r [] (Or.inl hr)

theorem classifyStep_move_branch (mv cp : Bool) (cpy : List (String × (String × Bool)))
    (st : Classified) (x : String × String) (r : String) (chg : Bool)
    (hx : lookupCpy cpy x.1 = some (r, chg)) (hmv : mv = true)
    (hr : getAssoc st.rems r = some true) :
    (classifyStep mv cp cpy st x).moves = st.moves ++ [(r, x.1, x.2)] ∧
    (classifyStep mv cp cpy st x).copies = st.copies ∧
    (classifyStep mv cp cpy st x).ntg = st.ntg ∧
    (classifyStep mv cp cpy st x).rems = setAssoc st.rems r false ∧
    (classifyStep mv cp cpy st x).mod2
      = (if chg = true then st.mod2 ++ [(x.1, x.2)] else st.mod2) := by
  unfold classifyStep
  rw [hx]
  by_cases hchg : chg = true <;> simp [hmv, hr, hchg]

theorem classifyStep_copy_branch (mv cp : Bool) (cpy : List (String × (String × Bool)))
    (st : Classified) (x : String × String) (r : String) (chg : Bool)
    (hx : lookupCpy cpy x.1 = some (r, chg))
    (hnm : ¬ (mv = true ∧ getAssoc st.rems r = some true)) (hcp : cp = true) :
    (classifyStep mv cp cpy st x).moves = st.moves ∧
    (classifyStep mv cp cpy st x).copies = st.copies ++ [(r, x.1)] ∧
    (classifyStep mv cp cpy st x).ntg = st.ntg ∧
    (classifyStep mv cp cpy st x).rems = st.rems ∧
    (classifyStep mv cp cpy st x).mod2
      = (if chg = true then st.mod2 ++ [(x.1, x.2)] else st.mod2) := by
  unfold classifyStep
  rw [hx]
  by_cases hchg : chg = true <;> simp [hnm, hcp, hchg]

theorem classifyStep_ntg_branch (mv cp : Bool) (cpy : List (String × (String × Bool)))
    (st : Classified) (x : String × String) (r : String) (chg : Bool)
    (hx : lookupCpy cpy x.1 = some (r, chg))
    (hnm : ¬ (mv = true ∧ getAssoc st.rems r = some true)) (hcp : ¬ cp = true) :
    (classifyStep mv cp cpy st x).moves = st.moves ∧
    (classifyStep mv cp cpy st x).copies = st.copies ∧
    (classifyStep mv cp cpy st x).ntg = st.ntg ++ [(r, x.1)] ∧
    (classifyStep mv cp cpy st x).rems = st.rems ∧
    (classifyStep mv cp cpy st x).mod2
      = (if chg = true then st.mod2 ++ [(x.1, x.2)] else st.mod2) := by
  unfold classifyStep
  rw [hx]
  by_cases hchg : chg = true <;> simp [hnm, hcp, hchg]

theorem classifyStep_add_branch (mv cp : Bool) (cpy : List (String × (String × Bool)))
    (st : Classified) (x : String × String)
    (hx : lookupCpy cpy x.1 = none) :
    (classifyStep mv cp cpy st x).moves = st.moves ∧
    (classifyStep mv cp cpy st x).copies = st.copies ∧
    (classifyStep mv cp cpy st x).ntg = st.ntg ∧
    (classifyStep mv cp cpy st x).rems = st.rems ∧
    (classifyStep mv cp cpy st x).mod2 = st.mod2 := by
  unfold classifyStep
  rw [hx]
  simp

theorem classifyLoop_cons (mv cp : Bool) (cpy : List (String × (String × Bool)))
    (x : String × String) (xs : List (String × String)) (st : Classified) :
    classifyLoop mv cp cpy (x :: xs) st
      = classifyLoop mv cp cpy xs (classifyStep mv cp cpy st x) := rfl

theorem classifyLoop_append (mv cp : Bool) (cpy : List (String × (String × Bool)))
    (a b : List (String × String)) (st : Classified) :
    classifyLoop mv cp cpy (a ++ b) st
      = classifyLoop mv cp cpy b (classifyLoop mv cp cpy a st) := by
  simp [classifyLoop, List.foldl_append]

theorem classifyStep_moves_dec (mv cp : Bool) (cpy : List (String × (String × Bool)))
    (st : Classified) (x : String × String) :
    ∃ t, (classifyStep mv cp cpy st x).moves = st.moves ++ t ∧
      ∀ e ∈ t, e.2.1 = x.1 ∧ ∃ c : Bool, lookupCpy cpy x.1 = some (e.1, c) := by
  cases hx : lookupCpy cpy x.1 with
  | none => exact ⟨[], by simp [(classifyStep_add_branch mv cp cpy st x hx).1], by simp⟩
  | some rc =>
    obtain ⟨r, chg⟩ := rc
    by_cases hmv : mv = true ∧ getAssoc st.rems r = some true
    · refine ⟨[(r, x.1, x.2)],
        (classifyStep_move_branch mv cp cpy st x r chg hx hmv.1 hmv.2).1, ?_⟩
      intro e he
      rcases List.mem_singleton.mp he with rfl
      exact ⟨rfl, chg, by simp⟩
    · by_cases hcp : cp = true
      · exact ⟨[], by simp [(classifyStep_copy_branch mv cp cpy st x r chg hx hmv hcp).1],
          by simp⟩
      · exact ⟨[], by simp [(classifyStep_ntg_branch mv cp cpy st x r chg hx hmv hcp).1],
          by simp⟩

theorem classifyStep_copies_dec (mv cp : Bool) (cpy : List (String × (String × Bool)))
    (st : Classified) (x : String × String) :
    ∃ t, (classifyStep mv cp cpy st x).copies = st.copies ++ t ∧
      ∀ e ∈ t, e.2 = x.1 ∧ ∃ c : Bool, lookupCpy cpy x.1 = some (e.1, c) := by
  cases hx : lookupCpy cpy x.1 with
  | none => exact ⟨[], by simp [(classifyStep_add_branch mv cp cpy st x hx).2.1], by simp⟩
  | some rc =>
    obtain ⟨r, chg⟩ := rc
    by_cases hmv : mv = true ∧ getAssoc st.rems r = some true
    · exact ⟨[], by simp [(classifyStep_move_branch mv cp cpy st x r chg hx hmv.1 hmv.2).2.1],
        by simp⟩
    · by_cases hcp : cp = true
      · refine ⟨[(r, x.1)],
          (classifyStep_copy_branch mv cp cpy st x r chg hx hmv hcp).2.1, ?_⟩
        intro e he
        rcases List.mem_singleton.mp he with rfl
        exact ⟨rfl, chg, by simp⟩
      · exact ⟨[], by simp [(classifyStep_ntg_branch mv cp cpy st x r chg hx hmv hcp).2.1],
          by simp⟩

theorem classifyStep_ntg_dec (mv cp : Bool) (cpy : List (String × (String × Bool)))
    (st : Classified) (x : String × String) :
    ∃ t, (classifyStep mv cp cpy st x).ntg = st.ntg ++ t ∧
      ∀ e ∈ t, e.2 = x.1 ∧ ∃ c : Bool, lookupCpy cpy x.1 = some (e.1, c) := by
  cases hx : lookupCpy cpy x.1 with
  | none => exact ⟨[], by simp [(classifyStep_add_branch mv cp cpy st x hx).2.2.1], by simp⟩
  | some rc =>
    obtain ⟨r, chg⟩ := rc
    by_cases hmv : mv = true ∧ getAssoc st.rems r = some true
    · exact ⟨[],
        by simp [(classifyStep_move_branch mv cp cpy st x r chg hx hmv.1 hmv.2).2.2.1],
        by simp⟩
    · by_cases hcp : cp = true
      · exact ⟨[], by simp [(classifyStep_copy_branch mv cp cpy st x r chg hx hmv hcp).2.2.1],
          by simp⟩
      · refine ⟨[(r, x.1)],
          (classifyStep_ntg_branch mv cp cpy st x r chg hx hmv hcp).2.2.1, ?_⟩
        intro e he
        rcases List.mem_singleton.mp he with rfl
        exact ⟨rfl, chg, by simp⟩

theorem classifyStep_mod2_dec (mv cp : Bool) (cpy : List (String × (String × Bool)))
    (st : Classified) (x : String × String) :
    ∃ t, (classifyStep mv cp cpy st x).mod2 = st.mod2 ++ t := by
  cases hx : lookupCpy cpy x.1 with
  | none => exact ⟨[], by simp [(classifyStep_add_branch mv cp cpy st x hx).2.2.2.2]⟩
  | some rc =>
    obtain ⟨r, chg⟩ := rc
    by_cases hmv : mv = true ∧ getAssoc st.rems r = some true
    · rcases (classifyStep_move_branch mv cp cpy st x r chg hx hmv.1 hmv.2).2.2.2.2 with hm
      by_cases hchg : chg = true
      · exact ⟨[(x.1, x.2)], by simp [hm, hchg]⟩
      · exact ⟨[], by simp [hm, hchg]⟩
    · by_cases hcp : cp = true
      · rcases (classifyStep_copy_branch mv cp cpy st x r chg hx hmv hcp).2.2.2.2 with hm
        by_cases hchg : chg = true
        · exact ⟨[(x.1, x.2)], by simp [hm, hchg]⟩
        · exact ⟨[], by simp [hm, hchg]⟩
      · rcases (classifyStep_ntg_branch mv cp cpy st x r chg hx hmv hcp).2.2.2.2 with hm
        by_cases hchg : chg = true
        · exact ⟨[(x.1, x.2)], by simp [hm, hchg]⟩
        · exact ⟨[], by simp [hm, hchg]⟩

theorem classifyLoop_moves_dec (mv cp : Bool) (cpy : List (String × (String × Bool)))
    (l : List (String × String)) (st : Classified) :
    ∃ t, (classifyLoop mv cp cpy l st).moves = st.moves ++ t ∧
      ∀ e ∈ t, ∃ x ∈ l, e.2.1 = x.1 ∧ ∃ c : Bool, lookupCpy cpy x.1 = some (e.1, c) := by
  induction l generalizing st with
  | nil => exact ⟨[], by simp [classifyLoop], by simp⟩
  | cons x xs ih =>
    rcases classifyStep_moves_dec mv cp cpy st x with ⟨s, hs, hsprop⟩
    rcases ih (classifyStep mv cp cpy st x) with ⟨t, ht, htprop⟩
    refine ⟨s ++ t, ?_, ?_⟩
    · rw [classifyLoop_cons, ht, hs, List.append_assoc]
    · intro e he
      rcases List.mem_append.mp he with hes | het
      · exact ⟨x, List.mem_cons_self x xs, hsprop e hes⟩
      · rcases htprop e het with ⟨x', hx', hp⟩
        exact ⟨x', List.mem_cons_of_mem _ hx', hp⟩

theorem classifyLoop_copies_dec (mv cp : Bool) (cpy : List (String × (String × Bool)))
    (l : List (String × String)) (st : Classified) :
    ∃ t, (classifyLoop mv cp cpy l st).copies = st.copies ++ t ∧
      ∀ e ∈ t, ∃ x ∈ l, e.2 = x.1 ∧ ∃ c : Bool, lookupCpy cpy x.1 = some (e.1, c) := by
  induction l generalizing st with
  | nil => exact ⟨[], by simp [classifyLoop], by simp⟩
  | cons x xs ih =>
    rcases classifyStep_copies_dec mv cp cpy st x with ⟨s, hs, hsprop⟩
    rcases ih (classifyStep mv cp cpy st x) with ⟨t, ht, htprop⟩
    refine ⟨s ++ t, ?_, ?_⟩
    · rw [classifyLoop_cons, ht, hs, List.append_assoc]
    · intro e he
      rcases List.mem_append.mp he with hes | het
      · exact ⟨x, List.mem_cons_self x xs, hsprop e hes⟩
      · rcases htprop e het with ⟨x', hx', hp⟩
        exact ⟨x', List.mem_cons_of_mem _ hx', hp⟩

theorem classifyLoop_ntg_dec (mv cp : Bool) (cpy : List (String × (String × Bool)))
    (l : List (String × String)) (st : Classified) :
    ∃ t, (classifyLoop mv cp cpy l st).ntg = st.ntg ++ t ∧
      ∀ e ∈ t, ∃ x ∈ l, e.2 = x.1 ∧ ∃ c : Bool, lookupCpy cpy x.1 = some (e.1, c) := by
  induction l generalizing st with
  | nil => exact ⟨[], by simp [classifyLoop], by simp⟩
  | cons x xs ih =>
    rcases classifyStep_ntg_dec mv cp cpy st x with ⟨s, hs, hsprop⟩
    rcases ih (classifyStep mv cp cpy st x) with ⟨t, ht, htprop⟩
    refine ⟨s ++ t, ?_, ?_⟩
    · rw [classifyLoop_cons, ht, hs, List.append_assoc]
    · intro e he
      rcases List.mem_append.mp he with hes | het
      · exact ⟨x, List.mem_cons_self x xs, hsprop e hes⟩
      · rcases htprop e het with ⟨x', hx', hp⟩
        exact ⟨x', List.mem_cons_of_mem _ hx', hp⟩

theorem classifyLoop_mod2_dec (mv cp : Bool) (cpy : List (String × (String × Bool)))
    (l : List (String × String)) (st : Classified) :
    ∃ t, (classifyLoop mv cp cpy l st).mod2 = st.mod2 ++ t := by
  induction l generalizing st with
  | nil => exact ⟨[], by simp [classifyLoop]⟩
  | cons x xs ih =>
    rcases classifyStep_mod2_dec mv cp cpy st x with ⟨s, hs⟩
    rcases ih (classifyStep mv cp cpy st x) with ⟨t, ht⟩
    exact ⟨s ++ t, by rw [classifyLoop_cons, ht, hs, List.append_assoc]⟩

theorem classifyStep_rems_preserve (mv cp : Bool) (cpy : List (String × (String × Bool)))
    (st : Classified) (x : String × String) (k : String)
    (h : ∀ c : Bool, ¬ lookupCpy cpy x.1 = some (k, c)) :
    getAssoc (classifyStep mv cp cpy st x).rems k = getAssoc st.rems k := by
  cases hx : lookupCpy cpy x.1 with
  | none => rw [(classifyStep_add_branch mv cp cpy st x hx).2.2.2.1]
  | some rc =>
    obtain ⟨r, chg⟩ := rc
    have hrk : ¬ r = k := fun hrk => h chg (hrk ▸ hx)
    by_cases hmv : mv = true ∧ getAssoc st.rems r = some true
    · rw [(classifyStep_move_branch mv cp cpy st x r chg hx hmv.1 hmv.2).2.2.2.1]
      exact getAssoc_setAssoc_ne st.rems r k false hrk
    · by_cases hcp : cp = true
      · rw [(classifyStep_copy_branch mv cp cpy st x r chg hx hmv hcp).2.2.2.1]
      · rw [(classifyStep_ntg_branch mv cp cpy st x r chg hx hmv hcp).2.2.2.1]

theorem classifyStep_rems_false (mv cp : Bool) (cpy : List (String × (String × Bool)))
    (st : Classified) (x : String × String) (k : String)
    (h : getAssoc st.rems k = some false) :
    getAssoc (classifyStep mv cp cpy st x).rems k = some false := by
  cases hx : lookupCpy cpy x.1 with
  | none => rw [(classifyStep_add_branch mv cp cpy st x hx).2.2.2.1]; exact h
  | some rc =>
    obtain ⟨r, chg⟩ := rc
    by_cases hmv : mv = true ∧ getAssoc st.rems r = some true
    · rw [(classifyStep_move_branch mv cp cpy st x r chg hx hmv.1 hmv.2).2.2.2.1]
      by_cases hrk : r = k
      · exact hrk ▸ getAssoc_setAssoc_self st.rems r false
      · exact (getAssoc_setAssoc_ne st.rems r k false hrk).trans h
    · by_cases hcp : cp = true
      · rw [(classifyStep_copy_branch mv cp cpy st x r chg hx hmv hcp).2.2.2.1]; exact h
      · rw [(classifyStep_ntg_branch mv cp cpy st x r chg hx hmv hcp).2.2.2.1]; exact h

theorem classifyLoop_rems_preserve (mv cp : Bool) (cpy : List (String × (String × Bool)))
    (l : List (String × String)) (st : Classified) (k : String)
    (h : ∀ x ∈ l, ∀ c : Bool, ¬ lookupCpy cpy x.1 = some (k, c)) :
    getAssoc (classifyLoop mv cp cpy l st).rems k = getAssoc st.rems k := by
  induction l generalizing st with
  | nil => simp [classifyLoop]
  | cons x xs ih =>
    rw [classifyLoop_cons,
      ih (classifyStep mv cp cpy st x) (fun y hy => h y (List.mem_cons_of_mem _ hy))]
    exact classifyStep_rems_preserve mv cp cpy st x k (h x (List.mem_cons_self x xs))

theorem classifyLoop_rems_false (mv cp : Bool) (cpy : List (String × (String × Bool)))
    (l : List (String × String)) (st : Classified) (k : String)
    (h : getAssoc st.rems k = some false) :
    getAssoc (classifyLoop mv cp cpy l st).rems k = some false := by
  induction l generalizing st with
  | nil => simpa [classifyLoop] using h
  | cons x xs ih =>
    rw [classifyLoop_cons]
    exact ih (classifyStep mv cp cpy st x) (classifyStep_rems_false mv cp cpy st x k h)

theorem classify_fst (mv cp : Bool) (add rem : List (String × String))
    (cpy : List (String × (String × Bool))) :
    (classify mv cp add rem cpy).1 = classifyLoop mv cp cpy add
      { moves := [], copies := [], ntg := [], add2 := [], mod2 := [],
        rems := remsInit rem } := rfl

theorem classify_snd (mv cp : Bool) (add rem : List (String × String))
    (cpy : List (String × (String × Bool))) :
    (classify mv cp add rem cpy).2 = rem.filter (fun e =>
      getAssoc (classifyLoop mv cp cpy add
        { moves := [], copies := [], ntg := [], add2 := [], mod2 := [],
          rems := remsInit rem }).rems e.1 = some true) := rfl

theorem classifyLoop_move_unique (cp : Bool) (pre post : List (String × String))
    (f g r : String) (chg : Bool) (cpy : List (String × (String × Bool))) (st0 : Classified)
    (hlook : lookupCpy cpy f = some (r, chg))
    (hm0 : st0.moves = []) (hc0 : st0.copies = []) (hn0 : st0.ntg = [])
    (hr0 : getAssoc st0.rems r = some true)
    (hpre : ∀ x ∈ pre, ∀ c : Bool, ¬ lookupCpy cpy x.1 = some (r, c))
    (hpost : ∀ x ∈ post, ¬ x.1 = f) :
    (classifyLoop true cp cpy (pre ++ (f, g) :: post) st0).moves.countP
        (fun m => m.1 == r && m.2.1 == f) = 1 ∧
    (∀ e ∈ (classifyLoop true cp cpy (pre ++ (f, g) :: post) st0).copies,
      ¬ (e.1 = r ∧ e.2 = f)) ∧
    (∀ e ∈ (classifyLoop true cp cpy (pre ++ (f, g) :: post) st0).ntg,
      ¬ (e.1 = r ∧ e.2 = f)) ∧
    getAssoc (classifyLoop true cp cpy (pre ++ (f, g) :: post) st0).rems r = some false := by
  have hrPre : getAssoc (classifyLoop true cp cpy pre st0).rems r = some true := by
    rw [classifyLoop_rems_preserve true cp cpy pre st0 r hpre]
    exact hr0
  have hbr := classifyStep_move_branch true cp cpy (classifyLoop true cp cpy pre st0)
    (f, g) r chg hlook rfl hrPre
  have hfull : classifyLoop true cp cpy (pre ++ (f, g) :: post) st0
      = classifyLoop true cp cpy post
        (classifyStep true cp cpy (classifyLoop true cp cpy pre st0) (f, g)) := by
    rw [classifyLoop_append, classifyLoop_cons]
  refine ⟨?_, ?_, ?_, ?_⟩
  · rcases classifyLoop_moves_dec true cp cpy pre st0 with ⟨tpre, htpre, htpreP⟩
    rcases classifyLoop_moves_dec true cp cpy post
      (classifyStep true cp cpy (classifyLoop true cp cpy pre st0) (f, g)) with
      ⟨tpost, htpost, htpostP⟩
    rw [hfull, htpost, hbr.1, htpre, hm0, List.nil_append]
    rw [List.countP_append, List.countP_append]
    have h1 : tpre.countP (fun m => m.1 == r && m.2.1 == f) = 0 := by
      rw [List.countP_eq_zero]
      intro e he hp
      rcases htpreP e he with ⟨x, hx, _, c, hlc⟩
      simp only [Bool.and_eq_true, beq_iff_eq] at hp
      exact hpre x hx c (by rw [hlc, hp.1])
    have h2 : List.countP (fun m => m.1 == r && m.2.1 == f) [(r, f, g)] = 1 := by
      simp
    have h3 : tpost.countP (fun m => m.1 == r && m.2.1 == f) = 0 := by
      rw [List.countP_eq_zero]
      intro e he hp
      rcases htpostP e he with ⟨x, hx, he1, _⟩
      simp only [Bool.and_eq_true, beq_iff_eq] at hp
      exact hpost x hx (by rw [← he1, hp.2])
    rw [h1, h2, h3]
  · rcases classifyLoop_copies_dec true cp cpy pre st0 with ⟨cpre, hcpre, hcpreP⟩
    rcases classifyLoop_copies_dec true cp cpy post
      (classifyStep true cp cpy (classifyLoop true cp cpy pre st0) (f, g)) with
      ⟨cpost, hcpost, hcpostP⟩
    intro e he hpair
    rw [hfull, hcpost, hbr.2.1, hcpre, hc0, List.nil_append] at he
    rcases List.mem_append.mp he with hes | het
    · rcases hcpreP e hes with ⟨x, hx, _, c, hlc⟩
      exact hpre x hx c (by rw [hlc, hpair.1])
    · rcases hcpostP e het with ⟨x, hx, he2, _⟩
      exact hpost x hx (by rw [← he2, hpair.2])
  · rcases classifyLoop_ntg_dec true cp cpy pre st0 with ⟨npre, hnpre, hnpreP⟩
    rcases classifyLoop_ntg_dec true cp cpy post
      (classifyStep true cp cpy (classifyLoop true cp cpy pre st0) (f, g)) with
      ⟨npost, hnpost, hnpostP⟩
    intro e he hpair
    rw [hfull, hnpost, hbr.2.2.1, hnpre, hn0, List.nil_append] at he
    rcases List.mem_append.mp he with hes | het
    · rcases hnpreP e hes with ⟨x, hx, _, c, hlc⟩
      exact hpre x hx c (by rw [hlc, hpair.1])
    · rcases hnpostP e het with ⟨x, hx, he2, _⟩
      exact hpost x hx (by rw [← he2, hpair.2])
  · rw [hfull]
    apply classifyLoop_rems_false
    rw [hbr.2.2.2.1]
    exact getAssoc_setAssoc_self _ r false

/-- C2 (amended): for every added file `f` whose copy-source `r` is known,
whose source also appears in the removed list, where no earlier added file
shares the copy-source `r` and no later added file reuses the destination
`f`, with move support enabled the classifier emits exactly one Move for
`(r, f)`, removes `r` from the final remove list, and emits no Copy and no
Integrate for that pair. -/
theorem classify_move_unique (cp : Bool) (pre post : List (String × String))
    (f g r : String) (chg : Bool) (rem : List (String × String))
    (cpy : List (String × (String × Bool)))
    (hlook : lookupCpy cpy f = some (r, chg))
    (hrem : r ∈ rem.map Prod.fst)
    (hpre : ∀ x ∈ pre, ∀ c : Bool, ¬ lookupCpy cpy x.1 = some (r, c))
    (hpost : ∀ x ∈ post, ¬ x.1 = f) :
    (classify true cp (pre ++ (f, g) :: post) rem cpy).1.moves.countP
        (fun m => m.1 == r && m.2.1 == f) = 1 ∧
    (∀ e ∈ (classify true cp (pre ++ (f, g) :: post) rem cpy).1.copies,
      ¬ (e.1 = r ∧ e.2 = f)) ∧
    (∀ e ∈ (classify true cp (pre ++ (f, g) :: post) rem cpy).1.ntg,
      ¬ (e.1 = r ∧ e.2 = f)) ∧
    (∀ e ∈ (classify true cp (pre ++ (f, g) :: post) rem cpy).2, ¬ e.1 = r) := by
  have key := classifyLoop_move_unique cp pre post f g r chg cpy
    { moves := [], copies := [], ntg := [], add2 := [], mod2 := [], rems := remsInit rem }
    hlook rfl rfl rfl (getAssoc_remsInit_of_mem rem r hrem) hpre hpost
  refine ⟨?_, ?_, ?_, ?_⟩
  · rw [classify_fst]
    exact key.1
  · rw [classify_fst]
    exact key.2.1
  · rw [classify_fst]
    exact key.2.2.1
  · intro e he her
    rw [classify_snd] at he
    have hmem := (List.mem_filter.mp he).2
    rw [her] at hmem
    rw [key.2.2.2] at hmem
    simp at hmem

/-- C2 counterexample: the added files `d1` and `d2` both have the removed
file `r` as copy-source, with move and copy support enabled.  For the added
file `d2` the premises of the claim hold (known copy-source, source in the
removed list, move support on), yet the classifier emits zero Move
operations and one Copy operation for the pair `(r, d2)`. -/
theorem classify_move_counterexample :
    ("d2", "") ∈ [("d1", ""), ("d2", "")] ∧
    lookupCpy [("d1", ("r", false)), ("d2", ("r", false))] "d2" = some ("r", false) ∧
    "r" ∈ [("r", "")].map Prod.fst ∧
    (classify true true [("d1", ""), ("d2", "")] [("r", "")]
        [("d1", ("r", false)), ("d2", ("r", false))]).1.moves.countP
      (fun m => m.1 == "r" && m.2.1 == "d2") = 0 ∧
    ("r", "d2") ∈ (classify true true [("d1", ""), ("d2", "")] [("r", "")]
        [("d1", ("r", false)), ("d2", ("r", false))]).1.copies :=
  ⟨by decide, rfl, by decide, by decide, by decide⟩

/-- C2 witness: a single added file `b` copied from the removed file `a`
with move support on is classified as exactly one Move, with no Copy, no
Integrate and no final Remove of `a`. -/
theorem classify_move_unique_witness :
    (classify true true ([] ++ ("b", "") :: []) [("a", "")] [("b", ("a", false))]).1.moves.countP
        (fun m => m.1 == "a" && m.2.1 == "b") = 1 ∧
    (∀ e ∈ (classify true true ([] ++ ("b", "") :: []) [("a", "")]
        [("b", ("a", false))]).1.copies, ¬ (e.1 = "a" ∧ e.2 = "b")) ∧
    (∀ e ∈ (classify true true ([] ++ ("b", "") :: []) [("a", "")]
        [("b", ("a", false))]).1.ntg, ¬ (e.1 = "a" ∧ e.2 = "b")) ∧
    (∀ e ∈ (classify true true ([] ++ ("b", "") :: []) [("a", "")]
        [("b", ("a", false))]).2, ¬ e.1 = "a") :=
  classify_move_unique true [] [] "b" "" "a" false [("a", "")] [("b", ("a", false))]
    rfl (by decide) (by intro x hx; simp at hx) (by intro x hx; simp at hx)

theorem classifyLoop_copy_unique (mv : Bool) (pre post : List (String × String))
    (f g r : String) (chg : Bool) (cpy : List (String × (String × Bool))) (st0 : Classified)
    (hlook : lookupCpy cpy f = some (r, chg))
    (hc0 : st0.copies = [])
    (hpre : ∀ x ∈ pre, ¬ x.1 = f) (hpost : ∀ x ∈ post, ¬ x.1 = f)
    (hnomove : ∀ m ∈ (classifyLoop mv true cpy (pre ++ (f, g) :: post) st0).moves,
      ¬ (m.1 = r ∧ m.2.1 = f)) :
    (classifyLoop mv true cpy (pre ++ (f, g) :: post) st0).copies.countP
        (fun e => e.1 == r && e.2 == f) = 1 ∧
    (chg = true → (f, g) ∈ (classifyLoop mv true cpy (pre ++ (f, g) :: post) st0).mod2) := by
  have hfull : classifyLoop mv true cpy (pre ++ (f, g) :: post) st0
      = classifyLoop mv true cpy post
        (classifyStep mv true cpy (classifyLoop mv true cpy pre st0) (f, g)) := by
    rw [classifyLoop_append, classifyLoop_cons]
  have hncond : ¬ (mv = true ∧
      getAssoc (classifyLoop mv true cpy pre st0).rems r = some true) := by
    intro hcond
    have hbr := classifyStep_move_branch mv true cpy (classifyLoop mv true cpy pre st0)
      (f, g) r chg hlook hcond.1 hcond.2
    rcases classifyLoop_moves_dec mv true cpy post
      (classifyStep mv true cpy (classifyLoop mv true cpy pre st0) (f, g)) with
      ⟨tpost, htpost, _⟩
    have hmem : (r, f, g) ∈ (classifyLoop mv true cpy (pre ++ (f, g) :: post) st0).moves := by
      rw [hfull, htpost, hbr.1]
      exact List.mem_append_left _ (List.mem_append_right _ (List.mem_singleton.mpr rfl))
    exact hnomove (r, f, g) hmem ⟨rfl, rfl⟩
  have hbr := classifyStep_copy_branch mv true cpy (classifyLoop mv true cpy pre st0)
    (f, g) r chg hlook hncond rfl
  constructor
  · rcases classifyLoop_copies_dec mv true cpy pre st0 with ⟨cpre, hcpre, hcpreP⟩
    rcases classifyLoop_copies_dec mv true cpy post
      (classifyStep mv true cpy (classifyLoop mv true cpy pre st0) (f, g)) with
      ⟨cpost, hcpost, hcpostP⟩
    rw [hfull, hcpost, hbr.2.1, hcpre, hc0, List.nil_append]
    rw [List.countP_append, List.countP_append]
    have h1 : cpre.countP (fun e => e.1 == r && e.2 == f) = 0 := by
      rw [List.countP_eq_zero]
      intro e he hp
      rcases hcpreP e he with ⟨x, hx, he2, _⟩
      simp only [Bool.and_eq_true, beq_iff_eq] at hp
      exact hpre x hx (by rw [← he2, hp.2])
    have h2 : List.countP (fun e => e.1 == r && e.2 == f) [(r, f)] = 1 := by
      simp
    have h3 : cpost.countP (fun e => e.1 == r && e.2 == f) = 0 := by
      rw [List.countP_eq_zero]
      intro e he hp
      rcases hcpostP e he with ⟨x, hx, he2, _⟩
      simp only [Bool.and_eq_true, beq_iff_eq] at hp
      exact hpost x hx (by rw [← he2, hp.2])
    rw [h1, h2, h3]
  · intro hchg
    rcases classifyLoop_mod2_dec mv true cpy post
      (classifyStep mv true cpy (classifyLoop mv true cpy pre st0) (f, g)) with
      ⟨mpost, hmpost⟩
    rw [hfull, hmpost, hbr.2.2.2.2, if_pos hchg]
    exact List.mem_append_left _ (List.mem_append_right _ (List.mem_singleton.mpr rfl))

/-- C3: for every added file `f` whose copy-source `r` is known but that is
not classified as a Move, with copy support enabled (and the destination
not repeated among the added files) the classifier emits exactly one Copy
and zero Move operations for the pair `(r, f)`; an entry stays in the final
remove list only if it was in the original removed list; and when the copy
changed content or flags, an additional Modify is scheduled on the
destination. -/
theorem classify_copy_unique (mv : Bool) (pre post : List (String × String))
    (f g r : String) (chg : Bool) (rem : List (String × String))
    (cpy : List (String × (String × Bool)))
    (hlook : lookupCpy cpy f = some (r, chg))
    (hpre : ∀ x ∈ pre, ¬ x.1 = f) (hpost : ∀ x ∈ post, ¬ x.1 = f)
    (hnomove : ∀ m ∈ (classify mv true (pre ++ (f, g) :: post) rem cpy).1.moves,
      ¬ (m.1 = r ∧ m.2.1 = f)) :
    (classify mv true (pre ++ (f, g) :: post) rem cpy).1.copies.countP
        (fun e => e.1 == r && e.2 == f) = 1 ∧
    (classify mv true (pre ++ (f, g) :: post) rem cpy).1.moves.countP
        (fun m => m.1 == r && m.2.1 == f) = 0 ∧
    (∀ e ∈ (classify mv true (pre ++ (f, g) :: post) rem cpy).2, e ∈ rem) ∧
    (chg = true → (f, g) ∈ (classify mv true (pre ++ (f, g) :: post) rem cpy).1.mod2) := by
  rw [classify_fst] at hnomove
  have key := classifyLoop_copy_unique mv pre post f g r chg cpy
    { moves := [], copies := [], ntg := [], add2 := [], mod2 := [], rems := remsInit rem }
    hlook rfl hpre hpost hnomove
  refine ⟨?_, ?_, ?_, ?_⟩
  · rw [classify_fst]
    exact key.1
  · rw [classify_fst]
    rw [List.countP_eq_zero]
    intro e he hp
    simp only [Bool.and_eq_true, beq_iff_eq] at hp
    exact hnomove e he hp
  · intro e he
    rw [classify_snd] at he
    exact (List.mem_filter.mp he).1
  · intro hchg
    rw [classify_fst]
    exact key.2 hchg

/-- C3 witness: an added file `b` copied (content changed) from `a`, which
is not being removed, with copy support on: one Copy, no Move, the final
remove list is within the original, and a Modify is scheduled on `b`. -/
theorem classify_copy_unique_witness :
    (classify true true ([] ++ ("b", "") :: []) [] [("b", ("a", true))]).1.copies.countP
        (fun e => e.1 == "a" && e.2 == "b") = 1 ∧
    (classify true true ([] ++ ("b", "") :: []) [] [("b", ("a", true))]).1.moves.countP
        (fun m => m.1 == "a" && m.2.1 == "b") = 0 ∧
    (∀ e ∈ (classify true true ([] ++ ("b", "") :: []) [] [("b", ("a", true))]).2,
      e ∈ ([] : List (String × String))) ∧
    (true = true → ("b", "") ∈ (classify true true ([] ++ ("b", "") :: [])
        [] [("b", ("a", true))]).1.mod2) :=
  classify_copy_unique true [] [] "b" "" "a" true [] [("b", ("a", true))]
    rfl (by intro x hx; simp at hx) (by intro x hx; simp at hx)
    (by
      intro m hm
      rw [show (classify true true ([] ++ ("b", "") :: []) []
          [("b", ("a", true))]).1.moves = [] from rfl] at hm
      exact absurd hm (List.not_mem_nil m))

/-! ## Lemmas about the embedded reference token (claim C5) -/

theorem toList_append (s t : String) : (s ++ t).toList = s.toList ++ t.toList := by
  simp [String.toList, String.data_append]

theorem intercalate_singleton (a : String) : String.intercalate ":" [a] = a := by
  simp [String.intercalate, String.intercalate.go]

theorem intercalate_pair (a b : String) : String.intercalate ":" [a, b] = a ++ ":" ++ b := by
  simp [String.intercalate, String.intercalate.go]

theorem stripLit_append (lit s : List Char) : stripLit lit (lit ++ s) = some s := by
  induction lit with
  | nil => rfl
  | cons c cs ih => simp [stripLit, ih]

theorem takeHexN_exact (h s : List Char) (hall : ∀ c ∈ h, isHexDigit c = true) :
    takeHexN h.length (h ++ s) = some (h, s) := by
  induction h with
  | nil => rfl
  | cons c cs ih =>
    have hc : isHexDigit c = true := hall c (List.mem_cons_self c cs)
    simp [takeHexN, hc, ih (fun x hx => hall x (List.mem_cons_of_mem _ hx))]

theorem takeHexN_40 (h s : List Char) (hlen : h.length = 40)
    (hall : ∀ c ∈ h, isHexDigit c = true) :
    takeHexN 40 (h ++ s) = some (h, s) := by
  rw [← hlen]
  exact takeHexN_exact h s hall

theorem matchHgid_head_ne (c : Char) (s : List Char) (h : ¬ c = '{') :
    matchHgid (c :: s) = none := by
  unfold matchHgid
  rw [show ("\x7b\x7bmercurial ".toList) = '{' :: "\x7bmercurial ".toList from rfl]
  simp [stripLit, h]

theorem scanHgid_skip (pre s : List Char) (h : ∀ c ∈ pre, ¬ c = '{') :
    scanHgid (pre ++ s) = scanHgid s := by
  induction pre with
  | nil => rfl
  | cons c cs ih =>
    have hm := matchHgid_head_ne c (cs ++ s) (h c (List.mem_cons_self c cs))
    rw [List.cons_append]
    simp only [scanHgid, hm]
    exact ih (fun x hx => h x (List.mem_cons_of_mem _ hx))

theorem matchHgid_single (h1 rest : List Char) (hlen : h1.length = 40)
    (hall : ∀ c ∈ h1, isHexDigit c = true) :
    matchHgid ("\x7b\x7bmercurial ".toList ++ (h1 ++ ('}' :: '}' :: rest)))
      = some (h1, none) := by
  unfold matchHgid
  rw [stripLit_append]
  simp only [takeHexN_40 h1 ('}' :: '}' :: rest) hlen hall]
  simp [stripLit]

theorem matchHgid_double (h1 h2 rest : List Char) (hlen1 : h1.length = 40)
    (hall1 : ∀ c ∈ h1, isHexDigit c = true) (hlen2 : h2.length = 40)
    (hall2 : ∀ c ∈ h2, isHexDigit c = true) :
    matchHgid ("\x7b\x7bmercurial ".toList ++ (h1 ++ (':' :: (h2 ++ ('}' :: '}' :: rest)))))
      = some (h1, some h2) := by
  unfold matchHgid
  rw [stripLit_append]
  simp only [takeHexN_40 h1 (':' :: (h2 ++ ('}' :: '}' :: rest))) hlen1 hall1]
  simp only [takeHexN_40 h2 ('}' :: '}' :: rest) hlen2 hall2]
  simp [stripLit]

theorem scanHgid_at_token (s : List Char) :
    scanHgid ("\x7b\x7bmercurial ".toList ++ s)
      = match matchHgid ("\x7b\x7bmercurial ".toList ++ s) with
        | some r => some r
        | none => scanHgid ("\x7bmercurial ".toList ++ s) := rfl

/-- C5: for every pair of well-formed forty-digit hex node ids and every
description text containing no `{` character, building the push description
with the embedded reference token and parsing it back recovers exactly the
original node range, in both the two-id range form and the single-id form
(`rangeIds` is the id list `h` built by `pushcommon`). -/
theorem token_roundtrip (descs : List String) (h1 h2 : String)
    (hno : ∀ c ∈ (String.intercalate "\n* * *\n" descs).toList, ¬ c = '{')
    (hh1 : isHex40 h1 = true) (hh2 : isHex40 h2 = true) :
    parsenodes (makeDesc descs (rangeIds h1 h2 true)) = some (h1, some h2) ∧
    parsenodes (makeDesc descs (rangeIds h1 h2 false)) = some (h2, none) := by
  simp only [isHex40, Bool.and_eq_true, decide_eq_true_eq, List.all_eq_true] at hh1 hh2
  have hlen1 : h1.toList.length = 40 := hh1.1
  have hall1 : ∀ c ∈ h1.toList, isHexDigit c = true := hh1.2
  have hlen2 : h2.toList.length = 40 := hh2.1
  have hall2 : ∀ c ∈ h2.toList, isHexDigit c = true := hh2.2
  have hpre : ∀ c ∈ ((String.intercalate "\n* * *\n" descs).toList ++ ['\n', '\n']),
      ¬ c = '{' := by
    intro c hc
    rcases List.mem_append.mp hc with h | h
    · exact hno c h
    · rcases List.mem_cons.mp h with rfl | h
      · decide
      · rcases List.mem_singleton.mp h with rfl
        decide
  constructor
  · have hlist : (makeDesc descs (rangeIds h1 h2 true)).toList
        = ((String.intercalate "\n* * *\n" descs).toList ++ ['\n', '\n'])
          ++ ("\x7b\x7bmercurial ".toList
            ++ (h1.toList ++ (':' :: (h2.toList ++ ('}' :: '}' :: ['\n']))))) := by
      rw [show rangeIds h1 h2 true = [h1, h2] from rfl]
      simp only [makeDesc, embedToken]
      rw [intercalate_pair]
      simp only [toList_append]
      rw [show ("\n\n" : String).toList = ['\n', '\n'] from rfl,
        show (":" : String).toList = [':'] from rfl,
        show ("\x7d\x7d" : String).toList = ['}', '}'] from rfl,
        show ("\n" : String).toList = ['\n'] from rfl]
      simp [List.append_assoc]
    unfold parsenodes
    rw [hlist, scanHgid_skip _ _ hpre, scanHgid_at_token,
      matchHgid_double h1.toList h2.toList ['\n'] hlen1 hall1 hlen2 hall2]
    rfl
  · have hlist : (makeDesc descs (rangeIds h1 h2 false)).toList
        = ((String.intercalate "\n* * *\n" descs).toList ++ ['\n', '\n'])
          ++ ("\x7b\x7bmercurial ".toList ++ (h2.toList ++ ('}' :: '}' :: ['\n']))) := by
      rw [show rangeIds h1 h2 false = [h2] from rfl]
      simp only [makeDesc, embedToken]
      rw [intercalate_singleton]
      simp only [toList_append]
      rw [show ("\n\n" : String).toList = ['\n', '\n'] from rfl,
        show ("\x7d\x7d" : String).toList = ['}', '}'] from rfl,
        show ("\n" : String).toList = ['\n'] from rfl]
      simp [List.append_assoc]
    unfold parsenodes
    rw [hlist, scanHgid_skip _ _ hpre, scanHgid_at_token,
      matchHgid_single h2.toList ['\n'] hlen2 hall2]
    rfl

/-- C5 witness: a concrete description and two concrete ids round-trip
through the embedded token in both forms. -/
theorem token_roundtrip_witness :
    parsenodes (makeDesc ["fix the bug"]
        (rangeIds "0123456789abcdef0123456789abcdef01234567"
          "aaaaaaaaaaaaaaaaaaaaaaaaaaaaaaaaaaaaaaaa" true))
      = some ("0123456789abcdef0123456789abcdef01234567",
          some "aaaaaaaaaaaaaaaaaaaaaaaaaaaaaaaaaaaaaaaa") ∧
    parsenodes (makeDesc ["fix the bug"]
        (rangeIds "0123456789abcdef0123456789abcdef01234567"
          "aaaaaaaaaaaaaaaaaaaaaaaaaaaaaaaaaaaaaaaa" false))
      = some ("aaaaaaaaaaaaaaaaaaaaaaaaaaaaaaaaaaaaaaaa", none) :=
  token_roundtrip ["fix the bug"] "0123456789abcdef0123456789abcdef01234567"
    "aaaaaaaaaaaaaaaaaaaaaaaaaaaaaaaaaaaaaaaa" (by decide) (by decide) (by decide)

/-! ## Lemmas about the history-correlation walk (claim C10) -/

theorem addParents_next_mem (ps seen next : List Nat) (y : Nat)
    (hy : y ∈ (addParents seen next ps).2) : y ∈ next ∨ y ∈ ps := by
  induction ps generalizing seen next with
  | nil => exact Or.inl (by simpa [addParents] using hy)
  | cons p rest ih =>
    by_cases hp : seen.contains p = true
    · rw [show addParents seen next (p :: rest) = addParents seen next rest from by
        simp only [addParents]; rw [if_pos hp]] at hy
      rcases ih seen next hy with h | h
      · exact Or.inl h
      · exact Or.inr (List.mem_cons_of_mem _ h)
    · rw [show addParents seen next (p :: rest)
          = addParents (seen ++ [p]) (next ++ [p]) rest from by
        simp only [addParents]; rw [if_neg hp]] at hy
      rcases ih (seen ++ [p]) (next ++ [p]) hy with h | h
      · rcases List.mem_append.mp h with h | h
        · exact Or.inl h
        · rcases List.mem_singleton.mp h with rfl
          exact Or.inr (List.mem_cons_self y rest)
      · exact Or.inr (List.mem_cons_of_mem _ h)

theorem findLevel_unmarked (marked : Nat → Option Nat) (parents : Nat → List Nat)
    (p4rev : Option Nat) (cur : List Nat) :
    ∀ next seen : List Nat, (∀ x ∈ cur, marked x = none) →
    ∃ ns : List Nat × List Nat,
      findLevel marked parents p4rev cur next seen = Sum.inr ns ∧
      ∀ y ∈ ns.1, y ∈ next ∨ ∃ x ∈ cur, y ∈ parents x := by
  induction cur with
  | nil => exact fun next seen _ => ⟨(next, seen), rfl, fun y hy => Or.inl hy⟩
  | cons c rest ih =>
    intro next seen hm
    have hc : marked c = none := hm c (List.mem_cons_self c rest)
    rw [show findLevel marked parents p4rev (c :: rest) next seen
        = findLevel marked parents p4rev rest
            (addParents seen next (parents c)).2 (addParents seen next (parents c)).1
        from by simp [findLevel, hc]]
    rcases ih ((addParents seen next (parents c)).2) ((addParents seen next (parents c)).1)
      (fun x hx => hm x (List.mem_cons_of_mem _ hx)) with ⟨ns, hns, hprop⟩
    refine ⟨ns, hns, ?_⟩
    intro y hy
    rcases hprop y hy with h | ⟨x, hx, hpx⟩
    · rcases addParents_next_mem (parents c) seen next y h with h | h
      · exact Or.inl h
      · exact Or.inr ⟨c, List.mem_cons_self c rest, h⟩
    · exact Or.inr ⟨x, List.mem_cons_of_mem _ hx, hpx⟩

theorem findBFS_no_marked (marked : Nat → Option Nat) (parents : Nat → List Nat)
    (p4rev : Option Nat) (rev : Nat)
    (hpar : ∀ c p, p ∈ parents c → p < c)
    (hanc : ∀ a, Reach parents rev a → marked a = none) :
    ∀ (f : Nat) (b : Nat) (cur seen : List Nat), b < f →
      (∀ x ∈ cur, x < b) → (∀ x ∈ cur, Reach parents rev x) →
      findBFS marked parents p4rev f cur seen = some none := by
  intro f
  induction f with
  | zero => intro b cur seen hbf; omega
  | succ f ih =>
    intro b cur seen hbf hlt hreach
    by_cases hcur : cur.isEmpty = true
    · simp [findBFS, hcur]
    · have hm : ∀ x ∈ cur, marked x = none := fun x hx => hanc x (hreach x hx)
      rcases findLevel_unmarked marked parents p4rev cur [] seen hm with ⟨ns, hns, hprop⟩
      rw [show findBFS marked parents p4rev (f + 1) cur seen
          = findBFS marked parents p4rev f ns.1 ns.2 from by simp [findBFS, hcur, hns]]
      obtain ⟨x0, hx0⟩ : ∃ x, x ∈ cur := by
        cases cur with
        | nil => simp at hcur
        | cons a l => exact ⟨a, List.mem_cons_self a l⟩
      have hb1 : 1 ≤ b := Nat.succ_le_of_lt (Nat.lt_of_le_of_lt (Nat.zero_le _) (hlt x0 hx0))
      apply ih (b - 1) ns.1 ns.2
      · omega
      · intro y hy
        rcases hprop y hy with h | ⟨x, hx, hpx⟩
        · simp at h
        · have h1 := hpar x y hpx
          have h2 := hlt x hx
          omega
      · intro y hy
        rcases hprop y hy with h | ⟨x, hx, hpx⟩
        · simp at h
        · exact Reach.step (hreach x hx) hpx

/-- C10: when no ancestor of the starting revision carries the
remote-changelist marker, the history-correlation walk called with the
non-aborting option returns the null node id paired with changelist number
0 instead of raising (parents of a changeset have strictly smaller revision
numbers, the Mercurial revlog invariant). -/
theorem find_no_marker_null (marked : Nat → Option Nat) (parents : Nat → List Nat)
    (rev : Nat) (hpar : ∀ c p, p ∈ parents c → p < c)
    (hanc : ∀ a, Reach parents rev a → marked a = none) :
    find marked parents rev none false = Except.ok (none, 0) := by
  have h := findBFS_no_marked marked parents none rev hpar hanc (rev + 2) (rev + 1)
    [rev] [] (by omega)
    (by intro x hx; rcases List.mem_singleton.mp hx with rfl; omega)
    (by intro x hx; rcases List.mem_singleton.mp hx with rfl; exact Reach.refl _)
  simp [find, h]

/-- C10 witness: a repository with no marker anywhere makes the non-aborting
walk from revision 5 return the null result. -/
theorem find_no_marker_null_witness :
    find (fun _ => none) (fun _ => []) 5 none false = Except.ok (none, 0) :=
  find_no_marker_null (fun _ => none) (fun _ => []) 5
    (fun _ p hp => absurd hp (List.not_mem_nil p))
    (fun _ _ => rfl)

end Perfarce
